import Mathlib

/-!
Verification development for the CFILE columnar container (src/writer.py and
src/reader.py).  The Python code is shallowly embedded: a file is a list of
byte values (`List Nat`), fallible operations return `Except Err`, and the
external collaborators (Python `float` literal parsing, `int` literal parsing,
UTF-8 codec, JSON serialization of the schema blob, and the zlib compressor)
are abstracted as fields of a `Codec` structure carrying exactly the algebraic
laws those collaborators are assumed to satisfy.  IEEE-754 doubles are modelled
by their exact rational values (finite doubles embed exactly in ℚ).
-/

/-- Errors raised by the embedded code.  Each constructor corresponds to one
Python exception site: the `truncated…`/`fileTooSmall` constructors are the
explicit `ValueError`s of `_parse_header`, `structError` is `struct.error`
from `struct.unpack`/`unpack_from` on a short buffer, `structPackError` is
`struct.error` from `struct.pack` on an out-of-range value, `unicodeError` is
`UnicodeDecodeError`, `jsonError` a failure of `json.loads`, `zlibError` a
failure of `zlib.decompress`, and the rest match the remaining `raise`
statements and builtin exceptions of the source. -/
inductive Err where
  | fileTooSmall
  | badMagic
  | badVersion
  | badEndianness
  | truncatedSchemaLen
  | truncatedSchemaJson
  | jsonError
  | truncatedGlobalMeta
  | truncatedDir
  | unicodeError
  | structError
  | structPackError
  | zlibError
  | truncatedBlock
  | sizeMismatch
  | noSuchColumn
  | unknownDtype
  | malformedValue
  | stopIteration
  | indexError
  deriving DecidableEq, Repr

/-- The spec's `TruncatedFile` error class: the explicit short-read
`ValueError`s raised by `_parse_header` ("file too small",
"truncated schema length", "truncated schema json",
"truncated global metadata", "truncated dir"). -/
def Err.isTruncFile : Err → Bool
  | .fileTooSmall | .truncatedSchemaLen | .truncatedSchemaJson
  | .truncatedGlobalMeta | .truncatedDir => true
  | _ => false

/-- The three logical column types of the format. -/
inductive DType where
  | int32
  | float64
  | str
  deriving DecidableEq, Repr

/-- The on-disk dtype tag of a logical type (`{"INT32":0,"FLOAT64":1,"STRING":2}`). -/
def DType.tag : DType → Nat
  | .int32 => 0
  | .float64 => 1
  | .str => 2

/-- A decoded cell value: Python `int`, `float` (modelled as its exact
rational value) or `str`. -/
inductive CVal where
  | vInt (i : Int)
  | vFloat (q : ℚ)
  | vStr (s : String)
  deriving DecidableEq, Repr

/-- The external collaborators of the core, abstracted with the laws the code
relies on.  `pyIntP` is Python `int(s)` on a string (strict integer literal
parse), `pyFloatP` is Python `float(s)` returning the exact rational value of
the resulting finite double, `utf8enc`/`utf8dec` the UTF-8 codec,
`f64enc`/`f64dec` the `struct` `<d` pack/unpack of a double (8 bytes),
`comp`/`decomp` the zlib codec, and `dumpsSchema`/`loads` the JSON
serialization of the schema blob (`loads` only records whether
`json.loads` succeeds, since the parsed blob is never used for decoding). -/
structure Codec where
  pyIntP : String → Option Int
  pyFloatP : String → Option ℚ
  utf8enc : String → List Nat
  utf8dec : List Nat → Option String
  f64enc : ℚ → List Nat
  f64dec : List Nat → ℚ
  comp : List Nat → List Nat
  decomp : List Nat → Option (List Nat)
  dumpsSchema : List (String × DType) → List Nat
  loads : List Nat → Option Unit
  intP_empty : pyIntP "" = none
  floatP_empty : pyFloatP "" = none
  utf8dec_enc : ∀ s, utf8dec (utf8enc s) = some s
  f64enc_len : ∀ q, (f64enc q).length = 8
  f64dec_enc_zero : f64dec (f64enc 0) = 0
  f64dec_enc : ∀ s q, pyFloatP s = some q → f64dec (f64enc q) = q
  decomp_comp : ∀ b, decomp (comp b) = some b
  loads_dumps : ∀ sc, loads (dumpsSchema sc) = some ()

/-! ### Little-endian byte packing (the `struct` helpers of the source) -/

/-- `w` little-endian base-256 digits of `n` (the byte image written by
`struct.pack` for an unsigned field of width `w`, when `n` is in range). -/
def natLE : Nat → Nat → List Nat
  | 0, _ => []
  | w + 1, n => n % 256 :: natLE w (n / 256)

/-- The unsigned value of a little-endian byte list (what `struct.unpack`
reads back for an unsigned field). -/
def leVal (l : List Nat) : Nat :=
  l.foldr (fun b acc => b + 256 * acc) 0

theorem natLE_length (w n : Nat) : (natLE w n).length = w := by
  induction w generalizing n with
  | zero => rfl
  | succ w ih => simp [natLE, ih]

theorem leVal_natLE {w n : Nat} (h : n < 256 ^ w) : leVal (natLE w n) = n := by
  induction w generalizing n with
  | zero =>
    simp [pow_zero, Nat.lt_one_iff] at h
    simp [h, natLE, leVal]
  | succ w ih =>
    have hdiv : n / 256 < 256 ^ w := by
      rw [Nat.div_lt_iff_lt_mul (by norm_num : 0 < 256)]
      calc n < 256 ^ (w + 1) := h
        _ = 256 ^ w * 256 := by ring
    simp only [natLE, leVal, List.foldr_cons]
    have : leVal (natLE w (n / 256)) = n / 256 := ih hdiv
    simp only [leVal] at this
    rw [this]
    omega

/-- `struct.pack("<B", v)`: one byte, `struct.error` if out of range. -/
def packU8 (n : Nat) : Except Err (List Nat) :=
  if n < 256 then .ok (natLE 1 n) else .error .structPackError

/-- `struct.pack("<H", v)`. -/
def packU16 (n : Nat) : Except Err (List Nat) :=
  if n < 256 ^ 2 then .ok (natLE 2 n) else .error .structPackError

/-- `struct.pack("<I", v)`. -/
def packU32 (n : Nat) : Except Err (List Nat) :=
  if n < 256 ^ 4 then .ok (natLE 4 n) else .error .structPackError

/-- `struct.pack("<Q", v)`. -/
def packU64 (n : Nat) : Except Err (List Nat) :=
  if n < 256 ^ 8 then .ok (natLE 8 n) else .error .structPackError

/-- `struct.pack("<i", v)`: 4 bytes, two's complement, `struct.error` if out
of the signed 32-bit range. -/
def packI32 (i : Int) : Except Err (List Nat) :=
  if -(2 ^ 31) ≤ i ∧ i < 2 ^ 31 then .ok (natLE 4 (i % 2 ^ 32).toNat)
  else .error .structPackError

/-- `struct.unpack("<i", b)`: signed value of 4 little-endian bytes. -/
def i32val (l : List Nat) : Int :=
  let n := leVal l
  if n < 2 ^ 31 then (n : Int) else (n : Int) - 2 ^ 32

theorem packU8_ok {n : Nat} {l : List Nat} (h : packU8 n = .ok l) :
    n < 256 ∧ l = natLE 1 n := by
  unfold packU8 at h; split at h
  · exact ⟨by assumption, (Except.ok.injEq _ _).mp h |>.symm⟩
  · cases h

theorem packU16_ok {n : Nat} {l : List Nat} (h : packU16 n = .ok l) :
    n < 256 ^ 2 ∧ l = natLE 2 n := by
  unfold packU16 at h; split at h
  · exact ⟨by assumption, (Except.ok.injEq _ _).mp h |>.symm⟩
  · cases h

theorem packU32_ok {n : Nat} {l : List Nat} (h : packU32 n = .ok l) :
    n < 256 ^ 4 ∧ l = natLE 4 n := by
  unfold packU32 at h; split at h
  · exact ⟨by assumption, (Except.ok.injEq _ _).mp h |>.symm⟩
  · cases h

theorem packU64_ok {n : Nat} {l : List Nat} (h : packU64 n = .ok l) :
    n < 256 ^ 8 ∧ l = natLE 8 n := by
  unfold packU64 at h; split at h
  · exact ⟨by assumption, (Except.ok.injEq _ _).mp h |>.symm⟩
  · cases h

theorem packI32_ok {i : Int} {l : List Nat} (h : packI32 i = .ok l) :
    (-(2 ^ 31) ≤ i ∧ i < 2 ^ 31) ∧ l = natLE 4 (i % 2 ^ 32).toNat := by
  unfold packI32 at h; split at h
  · exact ⟨by assumption, (Except.ok.injEq _ _).mp h |>.symm⟩
  · cases h

theorem i32val_packI32 {i : Int} (h1 : -(2 ^ 31) ≤ i) (h2 : i < 2 ^ 31) :
    i32val (natLE 4 (i % 2 ^ 32).toNat) = i := by
  have hpow : (2 : Int) ^ 32 = 4294967296 := by norm_num
  have h0 : 0 ≤ i % 2 ^ 32 := Int.emod_nonneg i (by norm_num)
  have h1' : i % 2 ^ 32 < 2 ^ 32 := Int.emod_lt_of_pos i (by norm_num)
  have hlt : (i % 2 ^ 32).toNat < 256 ^ 4 := by
    have : (256 : Nat) ^ 4 = 4294967296 := by norm_num
    omega
  unfold i32val
  simp only [leVal_natLE hlt]
  rcases le_or_lt 0 i with hpos | hneg
  · have hm : i % 2 ^ 32 = i := Int.emod_eq_of_lt hpos (by omega)
    rw [hm]
    have hn : i.toNat < 2 ^ 31 := by omega
    simp only [if_pos hn]
    omega
  · have hm : i % 2 ^ 32 = i + 2 ^ 32 := by
      rw [hpow] at h0 h1' ⊢
      omega
    rw [hm]
    have hn : ¬ (i + 2 ^ 32).toNat < 2 ^ 31 := by omega
    simp only [if_neg hn]
    omega

/-! ### Writer (src/writer.py) -/

/-- Sequencing of a fallible map over a list (a Python `for` loop that can
raise inside its body). -/
def mapExcept (f : α → Except Err β) : List α → Except Err (List β)
  | [] => .ok []
  | a :: as =>
    match f a with
    | .error e => .error e
    | .ok b =>
      match mapExcept f as with
      | .error e => .error e
      | .ok bs => .ok (b :: bs)

/-- The magic bytes `b"CFILEv01"`. -/
def MAGIC : List Nat := [67, 70, 73, 76, 69, 118, 48, 49]

/-- `pad_magic`: `magic_bytes.ljust(8, b"\x00")[:8]`. -/
def padMagic (m : List Nat) : List Nat :=
  (m ++ List.replicate (8 - m.length) 0).take 8

/-- `infer_type` (writer.py lines 35-46): empty string is STRING, else try a
strict integer parse, else a float parse, else STRING. -/
def inferType (c : Codec) (value : String) : DType :=
  if value = "" then .str
  else if (c.pyIntP value).isSome then .int32
  else if (c.pyFloatP value).isSome then .float64
  else .str

/-- `infer_schema_from_csv` (writer.py lines 48-60).  The CSV source is
modelled as the list of its rows (lists of string fields, as `csv.reader`
yields them); `next(rdr)` on an empty source raises `StopIteration`.
`zip(header, sample_row)` stops at the shorter of the two lists. -/
def inferSchemaFromCsv (c : Codec) (csv : List (List String)) :
    Except Err (List (String × DType)) :=
  match csv with
  | [] => .error .stopIteration
  | header :: rest =>
    match rest.head? with
    | none => .ok (header.map fun n => (n, DType.str))
    | some sample => .ok ((header.zip sample).map fun p => (p.1, inferType c p.2))

/-- `row = list(row) + [""] * (len(header) - len(row))`, then `row[:len(header)]`:
right-pad a short row with empty fields and drop fields beyond the header
width. -/
def padRow (hlen : Nat) (r : List String) : List String :=
  (r ++ List.replicate (hlen - r.length) "").take hlen

/-- `read_csv_columns` (writer.py lines 62-71): header row then per-column
lists, transposing the padded/truncated data rows.  The imperative loop
appends `(padRow hlen row)[i]` to column `i` for every row, which is the
transposition written here. -/
def readCsvColumns (csv : List (List String)) :
    Except Err (List String × List (List String)) :=
  match csv with
  | [] => .error .stopIteration
  | header :: rows =>
    .ok (header, (List.range header.length).map fun i =>
      rows.map fun r => (padRow header.length r).getD i "")

/-- Truncation toward zero of an exact rational, the behavior of Python
`int(x)` on a finite float `x`. -/
def ratTrunc (q : ℚ) : Int := Int.tdiv q.num q.den

/-- The INT32 cell coercion of `build_uncompressed_block`: `""` becomes `0`,
otherwise `int(float(v))` — a float parse followed by truncation toward zero;
an unparsable string raises (`MalformedValue`). -/
def int32ValueOf (c : Codec) (v : String) : Except Err Int :=
  if v = "" then .ok 0
  else
    match c.pyFloatP v with
    | none => .error .malformedValue
    | some q => .ok (ratTrunc q)

/-- The FLOAT64 cell coercion of `build_uncompressed_block`: `""` becomes
`0.0`, otherwise `float(v)`; an unparsable string raises. -/
def float64ValueOf (c : Codec) (v : String) : Except Err ℚ :=
  if v = "" then .ok 0
  else
    match c.pyFloatP v with
    | none => .error .malformedValue
    | some q => .ok q

/-- The STRING offset table of `build_uncompressed_block`: the running
cumulative byte offsets `[0, l0, l0+l1, …, total]` (the loop appends `cur`
before each value and once after the loop). -/
def stringOffsets (c : Codec) (values : List String) : List Nat :=
  List.scanl (· + ·) 0 (values.map fun v => (c.utf8enc v).length)

/-- `build_uncompressed_block` (writer.py lines 73-111). -/
def buildUncompressedBlock (c : Codec) (t : DType) (values : List String) :
    Except Err (List Nat) :=
  match t with
  | .int32 => do
    let bs ← mapExcept (fun v => do packI32 (← int32ValueOf c v)) values
    .ok bs.flatten
  | .float64 => do
    let qs ← mapExcept (float64ValueOf c) values
    .ok (qs.map c.f64enc).flatten
  | .str => do
    let offB ← mapExcept packU32 (stringOffsets c values)
    .ok (offB.flatten ++ (values.map c.utf8enc).flatten)

/-- One serialized directory entry:
`[name_len:2][name][dtype:1][block_offset:8][compressed_size:8][uncompressed_size:8][num_values:8]`. -/
def dirEntry (c : Codec) (name : String) (dt : Nat) (off cs us nv : Nat) :
    Except Err (List Nat) := do
  let nb := c.utf8enc name
  let e1 ← packU16 nb.length
  let e2 ← packU8 dt
  let e3 ← packU64 off
  let e4 ← packU64 cs
  let e5 ← packU64 us
  let e6 ← packU64 nv
  .ok (e1 ++ nb ++ e2 ++ e3 ++ e4 ++ e5 ++ e6)

/-- The directory-serialization loop of `write_cfile`: one entry per schema
column, taking `(offset, compressed_size, uncompressed_size)` from `metas` by
position (`offsets[i]` etc.); indexing past the end of `metas` is the
`IndexError` the source would raise when the schema is longer than the block
lists. -/
def mkDirectory (c : Codec) :
    List (String × DType) → List (Nat × Nat × Nat) → Nat → Except Err (List Nat)
  | [], _, _ => .ok []
  | _ :: _, [], _ => .error .indexError
  | (n, t) :: ss, (off, cs, us) :: ms, numRows => do
    let e ← dirEntry c n t.tag off cs us numRows
    let rest ← mkDirectory c ss ms numRows
    .ok (e ++ rest)

/-- The full serialized header of `write_cfile` (both the length-probing first
build with zero metas and the final build with the planned offsets):
magic, version, endianness, reserved, schema length, schema blob, row count,
column count, directory. -/
def mkHeader (c : Codec) (schema : List (String × DType)) (sjson : List Nat)
    (numRows : Nat) (metas : List (Nat × Nat × Nat)) : Except Err (List Nat) := do
  let vb ← packU8 1
  let eb ← packU8 0
  let rb ← packU16 0
  let sl ← packU32 sjson.length
  let nr ← packU64 numRows
  let nc ← packU32 schema.length
  let dir ← mkDirectory c schema metas numRows
  .ok (padMagic MAGIC ++ vb ++ eb ++ rb ++ sl ++ sjson ++ nr ++ nc ++ dir)

/-- `n` rounded up to the next multiple of 8 (the padding rule
`if cur % 8 != 0: cur += 8 - cur % 8`). -/
def align8 (n : Nat) : Nat := if n % 8 = 0 then n else n + (8 - n % 8)

/-- The offset-planning loop of `write_cfile` (lines 156-162): each block's
offset is the running cursor, which then advances by the block size padded to
the next multiple of 8. -/
def planOffsets : Nat → List Nat → List Nat
  | _, [] => []
  | cur, sz :: rest => cur :: planOffsets (align8 (cur + sz)) rest

/-- The block-serialization loop of `write_cfile` (lines 190-195): write each
compressed block followed by zero padding to the next 8-byte boundary of the
absolute file position. -/
def writeBlocks : Nat → List (List Nat) → List Nat
  | _, [] => []
  | pos, comp :: rest =>
    let p := pos + comp.length
    let padb := (8 - p % 8) % 8
    comp ++ List.replicate padb 0 ++ writeBlocks (p + padb) rest

/-- `columns[0]`: the first column, an `IndexError` when there are none. -/
def headOrIndexError (columns : List (List String)) : Except Err (List String) :=
  match columns.head? with
  | none => .error .indexError
  | some x => .ok x

/-- `write_cfile` (writer.py lines 113-195), returning the byte content of the
produced file.  `num_rows` is the length of the first column
(`len(columns[0])`, an `IndexError` when there are no columns);
`zip(schema, columns)` truncates at the shorter list; the header is built
twice, first with zeroed offsets only for its length. -/
def writeCfile (c : Codec) (schema : List (String × DType))
    (columns : List (List String)) : Except Err (List Nat) := do
  let col0 ← headOrIndexError columns
  let numRows := col0.length
  let sjson := c.dumpsSchema schema
  let blocks ← mapExcept (fun p => buildUncompressedBlock c p.1.2 p.2)
    (schema.zip columns)
  let comps := blocks.map c.comp
  let h0 ← mkHeader c schema sjson numRows (List.replicate schema.length (0, 0, 0))
  let pad := (8 - h0.length % 8) % 8
  let offs := planOffsets (h0.length + pad) (comps.map List.length)
  let metas := offs.zip ((comps.map List.length).zip (blocks.map List.length))
  let h ← mkHeader c schema sjson numRows metas
  .ok (h ++ List.replicate pad 0 ++ writeBlocks (h.length + pad) comps)

/-! ### Reader (src/reader.py) -/

/-- A parsed directory entry (`ColumnMeta` in reader.py).  The dtype is kept
as the raw tag byte, exactly as the source stores it. -/
structure ColumnMeta where
  name : String
  dtype : Nat
  blockOffset : Nat
  compressedSize : Nat
  uncompressedSize : Nat
  numValues : Nat
  deriving DecidableEq, Repr

/-- The reader state produced by `_parse_header`: global row/column counts and
the directory.  The JSON schema blob is parsed only for display and never
consulted when decoding, so it is not retained here. -/
structure HeaderInfo where
  numRows : Nat
  numCols : Nat
  cols : List ColumnMeta
  deriving DecidableEq, Repr

/-- `bytes.rstrip(b"\x00")`: drop trailing zero bytes. -/
def rstripZeros (l : List Nat) : List Nat :=
  (l.reverse.dropWhile (· = 0)).reverse

/-- One iteration of the directory loop in `_parse_header`.  A sequential
`fh.read(n)` returns at most `n` bytes, modelled by `take`/`drop` on the
remaining bytes.  Only the 2-byte name length has an explicit short-read
check (`truncated dir`); the name bytes are taken as-is (possibly short) and
decoded, and the fixed-width fields go straight to `struct.unpack`, which
raises `struct.error` unless exactly 1 resp. 8 bytes were read. -/
def parseDirEntry (c : Codec) (rem : List Nat) :
    Except Err (ColumnMeta × List Nat) :=
  let nlB := rem.take 2
  if nlB.length < 2 then .error .truncatedDir
  else
    let nameLen := leVal nlB
    let r1 := rem.drop 2
    match c.utf8dec (r1.take nameLen) with
    | none => .error .unicodeError
    | some name =>
      let r2 := r1.drop nameLen
      if (r2.take 1).length ≠ 1 then .error .structError
      else
        let dtype := leVal (r2.take 1)
        let r3 := r2.drop 1
        if (r3.take 8).length ≠ 8 then .error .structError
        else if ((r3.drop 8).take 8).length ≠ 8 then .error .structError
        else if (((r3.drop 8).drop 8).take 8).length ≠ 8 then .error .structError
        else if ((((r3.drop 8).drop 8).drop 8).take 8).length ≠ 8 then
          .error .structError
        else
          .ok (⟨name, dtype, leVal (r3.take 8), leVal ((r3.drop 8).take 8),
                leVal (((r3.drop 8).drop 8).take 8),
                leVal ((((r3.drop 8).drop 8).drop 8).take 8)⟩,
               (((r3.drop 8).drop 8).drop 8).drop 8)

/-- The directory loop of `_parse_header`: `num_columns` entries in sequence. -/
def parseDir (c : Codec) : Nat → List Nat → Except Err (List ColumnMeta × List Nat)
  | 0, rem => .ok ([], rem)
  | n + 1, rem =>
    match parseDirEntry c rem with
    | .error e => .error e
    | .ok (m, rem2) =>
      match parseDir c n rem2 with
      | .error e => .error e
      | .ok (ms, rem3) => .ok (m :: ms, rem3)

/-- `CFileReader._parse_header` (reader.py lines 41-88) on the file's bytes:
fixed 12-byte prefix with magic/version/endianness checks, 4-byte schema
length, schema blob (validated by `json.loads`), 8+4 bytes of global
metadata, then the directory. -/
def parseHeader (c : Codec) (file : List Nat) : Except Err HeaderInfo :=
  let pre := file.take 12
  if pre.length < 12 then .error .fileTooSmall
  else if rstripZeros (pre.take 8) ≠ MAGIC then .error .badMagic
  else if pre.getD 8 0 ≠ 1 then .error .badVersion
  else if pre.getD 9 0 ≠ 0 then .error .badEndianness
  else
    let r1 := file.drop 12
    if (r1.take 4).length < 4 then .error .truncatedSchemaLen
    else
      let schemaLen := leVal (r1.take 4)
      let r2 := r1.drop 4
      if (r2.take schemaLen).length < schemaLen then .error .truncatedSchemaJson
      else
        match c.loads (r2.take schemaLen) with
        | none => .error .jsonError
        | some _ =>
          let r3 := r2.drop schemaLen
          if (r3.take 12).length < 12 then .error .truncatedGlobalMeta
          else
            let numRows := leVal ((r3.take 12).take 8)
            let numCols := leVal ((r3.take 12).drop 8)
            match parseDir c numCols (r3.drop 12) with
            | .error e => .error e
            | .ok (cols, _) => .ok ⟨numRows, numCols, cols⟩

/-- `CFileReader._read_column_uncompressed` (reader.py lines 90-100): seek to
the block offset, read the compressed span (short read is the
"failed to read full compressed block" error), decompress, and check the
decompressed length against the directory ("uncompressed size mismatch"). -/
def readColumnUncompressed (c : Codec) (file : List Nat) (m : ColumnMeta) :
    Except Err (List Nat) :=
  let comp := (file.drop m.blockOffset).take m.compressedSize
  if comp.length ≠ m.compressedSize then .error .truncatedBlock
  else
    match c.decomp comp with
    | none => .error .zlibError
    | some un =>
      if un.length ≠ m.uncompressedSize then .error .sizeMismatch
      else .ok un

/-- The INT32 decode loop of `read_column`: `num_values` iterations of
`struct.unpack_from("<i", data, i*4)`, each requiring 4 bytes at its offset
(`struct.error` otherwise).  `i` is the running index, the second argument
the remaining iteration count. -/
def decodeIntsFrom (data : List Nat) : Nat → Nat → Except Err (List CVal)
  | _, 0 => .ok []
  | i, n + 1 =>
    let sl := (data.drop (4 * i)).take 4
    if sl.length ≠ 4 then .error .structError
    else
      match decodeIntsFrom data (i + 1) n with
      | .error e => .error e
      | .ok vs => .ok (CVal.vInt (i32val sl) :: vs)

/-- The FLOAT64 decode loop of `read_column`:
`struct.unpack_from("<d", data, i*8)`. -/
def decodeFloatsFrom (c : Codec) (data : List Nat) :
    Nat → Nat → Except Err (List CVal)
  | _, 0 => .ok []
  | i, n + 1 =>
    let sl := (data.drop (8 * i)).take 8
    if sl.length ≠ 8 then .error .structError
    else
      match decodeFloatsFrom c data (i + 1) n with
      | .error e => .error e
      | .ok vs => .ok (CVal.vFloat (c.f64dec sl) :: vs)

/-- The offset-table read of the STRING decode path:
`struct.unpack_from("<I", data, i*4)` repeated. -/
def decodeOffsFrom (data : List Nat) : Nat → Nat → Except Err (List Nat)
  | _, 0 => .ok []
  | i, n + 1 =>
    let sl := (data.drop (4 * i)).take 4
    if sl.length ≠ 4 then .error .structError
    else
      match decodeOffsFrom data (i + 1) n with
      | .error e => .error e
      | .ok os => .ok (leVal sl :: os)

/-- The slicing loop of the STRING decode path: for consecutive offset pairs
`(a, b)`, decode `sblob[a:b]` (Python slices clamp, so `a ≥ b` yields the
empty slice). -/
def decodeStrSlices (c : Codec) (sblob : List Nat) :
    List Nat → Except Err (List CVal)
  | [] => .ok []
  | [_] => .ok []
  | a :: b :: rest =>
    match c.utf8dec ((sblob.drop a).take (b - a)) with
    | none => .error .unicodeError
    | some s =>
      match decodeStrSlices c sblob (b :: rest) with
      | .error e => .error e
      | .ok vs => .ok (CVal.vStr s :: vs)

/-- The STRING branch of `read_column`: `num_values + 1` offsets, then the
payload slices. -/
def decodeStrings (c : Codec) (nv : Nat) (data : List Nat) :
    Except Err (List CVal) :=
  match decodeOffsFrom data 0 (nv + 1) with
  | .error e => .error e
  | .ok offs => decodeStrSlices c (data.drop (4 * (nv + 1))) offs

/-- The linear directory lookup of `read_column`
(`next((c for c in self.columns if c.name == name), None)`). -/
def findMeta (cols : List ColumnMeta) (name : String) : Option ColumnMeta :=
  cols.find? fun m => m.name == name

/-- The dtype dispatch of `read_column` (reader.py lines 109-132), on the raw
directory tag. -/
def decodeByTag (c : Codec) (tag nv : Nat) (data : List Nat) :
    Except Err (List CVal) :=
  if tag = 0 then decodeIntsFrom data 0 nv
  else if tag = 1 then decodeFloatsFrom c data 0 nv
  else if tag = 2 then decodeStrings c nv data
  else .error .unknownDtype

/-- `CFileReader.read_column` (reader.py lines 102-133). -/
def readColumn (c : Codec) (file : List Nat) (h : HeaderInfo) (name : String) :
    Except Err (List CVal) :=
  match findMeta h.cols name with
  | none => .error .noSuchColumn
  | some m =>
    match readColumnUncompressed c file m with
    | .error e => .error e
    | .ok data => decodeByTag c m.dtype m.numValues data

/-- A materialized row: a Python dict in insertion order. -/
abbrev Row := List (String × CVal)

/-- Python dict assignment `row[k] = v`: overwrite in place if the key exists,
else append. -/
def dictInsert (r : Row) (k : String) (v : CVal) : Row :=
  if r.any (fun p => p.1 == k) then r.map fun p => if p.1 == k then (k, v) else p
  else r ++ [(k, v)]

/-- Python dict lookup (first and only entry with the key). -/
def dictGet (r : Row) (k : String) : Option CVal :=
  (r.find? fun p => p.1 == k).map (·.2)

/-- The inner loop of `read_all` for row `i`: `row[cname] = cvals[i]` over the
name/column pairs, an `IndexError` when a column is shorter than `i+1`. -/
def buildRowAux (i : Nat) : List (String × List CVal) → Row → Except Err Row
  | [], r => .ok r
  | (n, cv) :: rest, r =>
    match cv[i]? with
    | none => .error .indexError
    | some v => buildRowAux i rest (dictInsert r n v)

/-- `CFileReader.read_all` (reader.py lines 141-151): decode every column by
name, then build one dict per row index in `range(num_rows)`. -/
def readAll (c : Codec) (file : List Nat) (h : HeaderInfo) :
    Except Err (List Row) :=
  match mapExcept (readColumn c file h) (h.cols.map (·.name)) with
  | .error e => .error e
  | .ok colData =>
    mapExcept (fun i => buildRowAux i ((h.cols.map (·.name)).zip colData) [])
      (List.range h.numRows)

/-! ### A concrete instance of the external collaborators, used to evaluate
the embedding on closed inputs.  The parse tables cover the literals used in
those evaluations; the byte codecs are any functions satisfying the laws.
Rationals are written as already-normalized `num`/`den` structures so that
closed goals about them reduce in the kernel. -/

/-- The rational 5/2 (the double value of the literal "2.5"). -/
def rq5h : ℚ := ⟨5, 2, by decide, by decide⟩

/-- The rational 39/10 (the double value of the literal "3.9"). -/
def rq39t : ℚ := ⟨39, 10, by decide, by decide⟩

/-- The rational -39/10 (the double value of the literal "-3.9"). -/
def rqm39t : ℚ := ⟨-39, 10, by decide, by decide⟩

/-- A concrete float-literal table. -/
def exFloatP (s : String) : Option ℚ :=
  if s = "1" then some 1
  else if s = "2" then some 2
  else if s = "2.5" then some rq5h
  else if s = "3.9" then some rq39t
  else if s = "-3.9" then some rqm39t
  else none

/-- A concrete double byte-image table matching `exFloatP`. -/
def exF64enc (q : ℚ) : List Nat :=
  if q = 1 then [1, 0, 0, 0, 0, 0, 0, 0]
  else if q = 2 then [2, 0, 0, 0, 0, 0, 0, 0]
  else if q = rq5h then [3, 0, 0, 0, 0, 0, 0, 0]
  else if q = rq39t then [4, 0, 0, 0, 0, 0, 0, 0]
  else if q = rqm39t then [5, 0, 0, 0, 0, 0, 0, 0]
  else [0, 0, 0, 0, 0, 0, 0, 0]

/-- The inverse of `exF64enc` on its table. -/
def exF64dec (l : List Nat) : ℚ :=
  if l = [1, 0, 0, 0, 0, 0, 0, 0] then 1
  else if l = [2, 0, 0, 0, 0, 0, 0, 0] then 2
  else if l = [3, 0, 0, 0, 0, 0, 0, 0] then rq5h
  else if l = [4, 0, 0, 0, 0, 0, 0, 0] then rq39t
  else if l = [5, 0, 0, 0, 0, 0, 0, 0] then rqm39t
  else 0

/-- The type names `json.dumps` writes into the schema blob
(the writer's `{0:"INT32",1:"FLOAT64",2:"STRING"}` table). -/
def dtypeName : DType → String
  | .int32 => "INT32"
  | .float64 => "FLOAT64"
  | .str => "STRING"

/-- The text between the braces of the schema JSON object, exactly as
`json.dumps` with separators `(",", ":")` lays it out:
`"columns":[{"name":N,"type":T},...]`. -/
def exSchemaJsonMid (sc : List (String × DType)) : String :=
  "\"columns\":[" ++
    String.intercalate ","
      (sc.map fun p =>
        "\x7b\"name\":\"" ++ p.1 ++ "\",\"type\":\"" ++ dtypeName p.2 ++ "\"\x7d") ++
  "]"

/-- The byte blob the writer's `json.dumps({"columns": schema},
separators=(",",":")).encode("utf-8")` produces (for the ASCII column names
used here, the code-point image equals the UTF-8 bytes): the opening brace
byte 123, the object body, the closing brace byte 125. -/
def exDumps (sc : List (String × DType)) : List Nat :=
  123 :: (exSchemaJsonMid sc).data.map Char.toNat ++ [125]

/-- The concrete instance's `json.loads` acceptance test: the blob must be a
JSON object, so it must at least start with the opening-brace byte and end
with the closing-brace byte.  In particular the empty blob — which the real
`json.loads` rejects with a parse error — is rejected here too. -/
def exLoads (l : List Nat) : Option Unit :=
  if l.head? = some 123 ∧ l.getLast? = some 125 then some () else none

/-- `exLoads` rejects the empty schema blob, as `json.loads("")` raises. -/
theorem exLoads_nil : exLoads [] = none := rfl

/-- Every blob `exDumps` produces is accepted by `exLoads`. -/
theorem exLoads_exDumps (sc : List (String × DType)) :
    exLoads (exDumps sc) = some () := by
  have hlast : (exDumps sc).getLast? = some 125 := by
    unfold exDumps
    exact List.getLast?_concat _
  have hhead : (exDumps sc).head? = some 123 := rfl
  unfold exLoads
  rw [if_pos ⟨hhead, hlast⟩]

/-- The uncompressed block bytes used by the C5 failing input: two
little-endian INT32 values, 5 and 7. -/
def rawC5 : List Nat := [5, 0, 0, 0, 7, 0, 0, 0]

/-- The actual zlib stream whose decompression yields `rawC5` (the bytes
`zlib.compress` produces for it at the default level). -/
def zlibC5 : List Nat := [120, 156, 99, 101, 96, 96, 96, 7, 98, 0, 0, 76, 0, 13]

/-- The concrete compressor: it maps `rawC5` to its genuine zlib stream (and
swaps the two so the round-trip law stays total); any other block is carried
through unchanged. -/
def exComp (b : List Nat) : List Nat :=
  if b = rawC5 then zlibC5 else if b = zlibC5 then rawC5 else b

/-- The concrete decompressor, inverting `exComp`. -/
def exDecomp (l : List Nat) : Option (List Nat) :=
  if l = zlibC5 then some rawC5 else if l = rawC5 then some zlibC5 else some l

theorem exDecomp_exComp (b : List Nat) : exDecomp (exComp b) = some b := by
  by_cases h1 : b = rawC5
  · subst h1; decide
  · by_cases h2 : b = zlibC5
    · subst h2; decide
    · unfold exComp exDecomp
      rw [if_neg h1, if_neg h2, if_neg h2, if_neg h1]

/-- The concrete collaborator instance. -/
def exC : Codec where
  pyIntP s := if s = "1" then some 1 else if s = "2" then some 2 else none
  pyFloatP := exFloatP
  utf8enc s := s.data.map Char.toNat
  utf8dec l := some (String.mk (l.map Char.ofNat))
  f64enc := exF64enc
  f64dec := exF64dec
  comp := exComp
  decomp := exDecomp
  dumpsSchema := exDumps
  loads := exLoads
  intP_empty := by decide
  floatP_empty := by decide
  utf8dec_enc s := by
    simp only [List.map_map, Option.some.injEq]
    have h : (Char.ofNat ∘ Char.toNat) = id := funext Char.ofNat_toNat
    rw [h, List.map_id]
  f64enc_len q := by unfold exF64enc; split_ifs <;> rfl
  f64dec_enc_zero := by decide
  f64dec_enc s q h := by
    unfold exFloatP at h
    split_ifs at h <;>
      first
        | (cases h; decide)
        | cases h
  decomp_comp := exDecomp_exComp
  loads_dumps := exLoads_exDumps

/-- Every code point of a string is below the Unicode bound. -/
theorem char_toNat_lt (c : Char) : c.toNat < 1114112 := by
  have h := c.valid
  simp only [UInt32.isValidChar, Nat.isValidChar] at h
  have he : c.toNat = c.val.toNat := rfl
  omega

/-- A variant collaborator whose UTF-8 decoder can fail: it rejects any byte
list holding a unit outside the Unicode code-point range (such units never
occur in an encoded string, so the round-trip law still holds).  It
instantiates the branch where a short read leaves undecodable name bytes. -/
def exCu : Codec :=
  { exC with
    utf8dec := fun l =>
      if l.all (fun b => b < 1114112) then some (String.mk (l.map Char.ofNat))
      else none
    utf8dec_enc := fun s => by
      have hall : (s.data.map Char.toNat).all (fun b => b < 1114112) = true := by
        rw [List.all_eq_true]
        intro x hx
        obtain ⟨ch, _, hc⟩ := List.mem_map.mp hx
        subst hc
        simpa using char_toNat_lt ch
      show (if (s.data.map Char.toNat).all (fun b => b < 1114112) = true
          then some (String.mk ((s.data.map Char.toNat).map Char.ofNat))
          else none) = some s
      rw [if_pos hall]
      simp only [List.map_map, Option.some.injEq]
      have h : (Char.ofNat ∘ Char.toNat) = id := funext Char.ofNat_toNat
      rw [h, List.map_id] }

/-! ### Inversion helpers -/

theorem bind_ok_inv {α β : Type} {x : Except Err α} {f : α → Except Err β} {b : β}
    (h : (x >>= f) = .ok b) : ∃ a, x = .ok a ∧ f a = .ok b := by
  cases x with
  | error e => simp only [Bind.bind, Except.bind] at h; cases h
  | ok a => exact ⟨a, rfl, by simpa only [Bind.bind, Except.bind] using h⟩

theorem bind_ok {α β : Type} {x : Except Err α} {f : α → Except Err β} {a : α}
    (h : x = .ok a) : (x >>= f) = f a := by
  subst h; rfl

theorem mapExcept_ok_length {f : α → Except Err β} {l : List α} {bs : List β}
    (h : mapExcept f l = .ok bs) : bs.length = l.length := by
  induction l generalizing bs with
  | nil => cases h; rfl
  | cons a as ih =>
    unfold mapExcept at h
    cases hfa : f a with
    | error e => rw [hfa] at h; cases h
    | ok b =>
      rw [hfa] at h
      cases hrest : mapExcept f as with
      | error e => rw [hrest] at h; cases h
      | ok bs2 =>
        rw [hrest] at h
        cases h
        simp [ih hrest]

theorem mapExcept_ok_get {f : α → Except Err β} {l : List α} {bs : List β}
    (h : mapExcept f l = .ok bs) :
    ∀ (i : Nat) (a : α), l[i]? = some a → ∃ b, bs[i]? = some b ∧ f a = .ok b := by
  induction l generalizing bs with
  | nil => intro i a ha; simp at ha
  | cons x xs ih =>
    unfold mapExcept at h
    cases hfa : f x with
    | error e => rw [hfa] at h; cases h
    | ok b =>
      rw [hfa] at h
      cases hrest : mapExcept f xs with
      | error e => rw [hrest] at h; cases h
      | ok bs2 =>
        rw [hrest] at h
        cases h
        intro i a ha
        cases i with
        | zero =>
          simp only [List.getElem?_cons_zero, Option.some.injEq] at ha
          subst ha
          exact ⟨b, by simp, hfa⟩
        | succ j =>
          simp only [List.getElem?_cons_succ] at ha ⊢
          exact ih hrest j a ha

theorem mapExcept_ok_of_forall {f : α → Except Err β} {l : List α}
    (h : ∀ a ∈ l, ∃ b, f a = .ok b) : ∃ bs, mapExcept f l = .ok bs := by
  induction l with
  | nil => exact ⟨[], rfl⟩
  | cons x xs ih =>
    obtain ⟨b, hb⟩ := h x (by simp)
    obtain ⟨bs, hbs⟩ := ih (fun a ha => h a (by simp [ha]))
    exact ⟨b :: bs, by unfold mapExcept; rw [hb, hbs]⟩

/-- Reading the first `a.length` bytes of `a ++ b` yields `a`. -/
theorem take_chunk {α : Type} {n : Nat} (a b : List α) (h : a.length = n) :
    (a ++ b).take n = a := by
  subst h; exact List.take_left a b

/-- Reading past the first `a.length` bytes of `a ++ b` leaves `b`. -/
theorem drop_chunk {α : Type} {n : Nat} (a b : List α) (h : a.length = n) :
    (a ++ b).drop n = b := by
  subst h; exact List.drop_left a b

/-- Two chunks read together. -/
theorem take_chunk2 {α : Type} {n : Nat} (a b x : List α)
    (h : a.length + b.length = n) : (a ++ (b ++ x)).take n = a ++ b := by
  rw [← List.append_assoc]
  exact take_chunk _ _ (by simpa using h)

/-- Dropping two chunks at once. -/
theorem drop_chunk2 {α : Type} {n : Nat} (a b x : List α)
    (h : a.length + b.length = n) : (a ++ (b ++ x)).drop n = x := by
  rw [← List.append_assoc]
  exact drop_chunk _ _ (by simpa using h)

/-! ### Shape of the serialized header -/

theorem dirEntry_ok {c : Codec} {name : String} {dt off cs us nv : Nat}
    {e : List Nat} (h : dirEntry c name dt off cs us nv = .ok e) :
    (c.utf8enc name).length < 256 ^ 2 ∧ dt < 256 ∧ off < 256 ^ 8 ∧
    cs < 256 ^ 8 ∧ us < 256 ^ 8 ∧ nv < 256 ^ 8 ∧
    e = natLE 2 (c.utf8enc name).length ++ c.utf8enc name ++ natLE 1 dt ++
        natLE 8 off ++ natLE 8 cs ++ natLE 8 us ++ natLE 8 nv := by
  unfold dirEntry at h
  obtain ⟨e1, h1, h⟩ := bind_ok_inv h
  obtain ⟨e2, h2, h⟩ := bind_ok_inv h
  obtain ⟨e3, h3, h⟩ := bind_ok_inv h
  obtain ⟨e4, h4, h⟩ := bind_ok_inv h
  obtain ⟨e5, h5, h⟩ := bind_ok_inv h
  obtain ⟨e6, h6, h⟩ := bind_ok_inv h
  obtain ⟨hb1, he1⟩ := packU16_ok h1
  obtain ⟨hb2, he2⟩ := packU8_ok h2
  obtain ⟨hb3, he3⟩ := packU64_ok h3
  obtain ⟨hb4, he4⟩ := packU64_ok h4
  obtain ⟨hb5, he5⟩ := packU64_ok h5
  obtain ⟨hb6, he6⟩ := packU64_ok h6
  cases h
  subst he1 he2 he3 he4 he5 he6
  refine ⟨hb1, hb2, hb3, hb4, hb5, hb6, by simp [natLE]⟩

theorem parseDirEntry_dirEntry {c : Codec} {name : String} {dt off cs us nv : Nat}
    {e : List Nat} (h : dirEntry c name dt off cs us nv = .ok e) (rest : List Nat) :
    parseDirEntry c (e ++ rest) = .ok (⟨name, dt, off, cs, us, nv⟩, rest) := by
  obtain ⟨hb1, hb2, hb3, hb4, hb5, hb6, he⟩ := dirEntry_ok h
  subst he
  unfold parseDirEntry
  rw [List.append_assoc, List.append_assoc, List.append_assoc, List.append_assoc,
    List.append_assoc, List.append_assoc]
  simp only [take_chunk _ _ (natLE_length 2 _), drop_chunk _ _ (natLE_length 2 _),
    natLE_length, leVal_natLE hb1, take_chunk _ _ rfl, drop_chunk _ _ rfl,
    c.utf8dec_enc, take_chunk _ _ (natLE_length 1 _), drop_chunk _ _ (natLE_length 1 _),
    take_chunk _ _ (natLE_length 8 _), drop_chunk _ _ (natLE_length 8 _),
    leVal_natLE (show dt < 256 ^ 1 by simpa using hb2), leVal_natLE hb3,
    leVal_natLE hb4, leVal_natLE hb5,
    leVal_natLE hb6, lt_self_iff_false, if_false, ne_eq, not_true_eq_false]

/-- The directory the reader should recover from a header serialized with the
given schema, per-column `(offset, compressed, uncompressed)` metas and global
row count. -/
def expectedMetas (schema : List (String × DType)) (metas : List (Nat × Nat × Nat))
    (nv : Nat) : List ColumnMeta :=
  (schema.zip metas).map fun p => ⟨p.1.1, p.1.2.tag, p.2.1, p.2.2.1, p.2.2.2, nv⟩

/-- Byte length of the serialized directory: 35 fixed bytes plus the encoded
name, per column. -/
def dirLenOf (c : Codec) (schema : List (String × DType)) : Nat :=
  (schema.map fun p => 35 + (c.utf8enc p.1).length).sum

theorem mkDirectory_ok_cons {c : Codec} {n : String} {t : DType}
    {ss : List (String × DType)} {m : Nat × Nat × Nat} {ms : List (Nat × Nat × Nat)}
    {nr : Nat} {dir : List Nat}
    (h : mkDirectory c ((n, t) :: ss) (m :: ms) nr = .ok dir) :
    ∃ e rest, dirEntry c n t.tag m.1 m.2.1 m.2.2 nr = .ok e ∧
      mkDirectory c ss ms nr = .ok rest ∧ dir = e ++ rest := by
  obtain ⟨m1, m2, m3⟩ := m
  unfold mkDirectory at h
  obtain ⟨e, he, h⟩ := bind_ok_inv h
  obtain ⟨rest, hrest, h⟩ := bind_ok_inv h
  cases h
  exact ⟨e, rest, he, hrest, rfl⟩

theorem mkDirectory_ok_length {c : Codec} {schema : List (String × DType)}
    {metas : List (Nat × Nat × Nat)} {nr : Nat} {dir : List Nat}
    (h : mkDirectory c schema metas nr = .ok dir) :
    dir.length = dirLenOf c schema := by
  induction schema generalizing metas dir with
  | nil => cases h; rfl
  | cons p ss ih =>
    obtain ⟨n, t⟩ := p
    cases metas with
    | nil => cases h
    | cons m ms =>
      obtain ⟨e, rest, he, hrest, hdir⟩ := mkDirectory_ok_cons h
      obtain ⟨_, _, _, _, _, _, hshape⟩ := dirEntry_ok he
      subst hdir hshape
      simp [dirLenOf, ih hrest, natLE_length]
      ring

theorem mkDirectory_parseDir {c : Codec} {schema : List (String × DType)}
    {metas : List (Nat × Nat × Nat)} {nr : Nat} {dir : List Nat}
    (h : mkDirectory c schema metas nr = .ok dir) (rest : List Nat) :
    parseDir c schema.length (dir ++ rest) =
      .ok (expectedMetas schema metas nr, rest) := by
  induction schema generalizing metas dir rest with
  | nil => cases h; rfl
  | cons p ss ih =>
    obtain ⟨n, t⟩ := p
    cases metas with
    | nil => cases h
    | cons m ms =>
      obtain ⟨e, dirRest, he, hrest, hdir⟩ := mkDirectory_ok_cons h
      subst hdir
      rw [List.append_assoc]
      show parseDir c (ss.length + 1) (e ++ (dirRest ++ rest)) = _
      unfold parseDir
      rw [parseDirEntry_dirEntry he]
      simp only [ih hrest, expectedMetas, List.zip_cons_cons, List.map_cons]

theorem mkHeader_ok {c : Codec} {schema : List (String × DType)} {sjson : List Nat}
    {numRows : Nat} {metas : List (Nat × Nat × Nat)} {h : List Nat}
    (hh : mkHeader c schema sjson numRows metas = .ok h) :
    ∃ dir, mkDirectory c schema metas numRows = .ok dir ∧
      sjson.length < 256 ^ 4 ∧ numRows < 256 ^ 8 ∧ schema.length < 256 ^ 4 ∧
      h = [67, 70, 73, 76, 69, 118, 48, 49, 1, 0, 0, 0] ++
          (natLE 4 sjson.length ++ (sjson ++
          (natLE 8 numRows ++ (natLE 4 schema.length ++ dir)))) := by
  unfold mkHeader at hh
  obtain ⟨vb, hvb, hh⟩ := bind_ok_inv hh
  obtain ⟨eb, heb, hh⟩ := bind_ok_inv hh
  obtain ⟨rb, hrb, hh⟩ := bind_ok_inv hh
  obtain ⟨sl, hsl, hh⟩ := bind_ok_inv hh
  obtain ⟨nr, hnr, hh⟩ := bind_ok_inv hh
  obtain ⟨nc, hnc, hh⟩ := bind_ok_inv hh
  obtain ⟨dir, hdir, hh⟩ := bind_ok_inv hh
  obtain ⟨_, hvb'⟩ := packU8_ok hvb
  obtain ⟨_, heb'⟩ := packU8_ok heb
  obtain ⟨_, hrb'⟩ := packU16_ok hrb
  obtain ⟨hsl1, hsl'⟩ := packU32_ok hsl
  obtain ⟨hnr1, hnr'⟩ := packU64_ok hnr
  obtain ⟨hnc1, hnc'⟩ := packU32_ok hnc
  cases hh
  subst hvb' heb' hrb' hsl' hnr' hnc'
  refine ⟨dir, hdir, hsl1, hnr1, hnc1, ?_⟩
  simp only [padMagic, MAGIC, natLE]
  simp [natLE]

theorem mkHeader_ok_length {c : Codec} {schema : List (String × DType)}
    {sjson : List Nat} {numRows : Nat} {metas : List (Nat × Nat × Nat)}
    {h : List Nat} (hh : mkHeader c schema sjson numRows metas = .ok h) :
    h.length = 28 + sjson.length + dirLenOf c schema := by
  obtain ⟨dir, hdir, _, _, _, hshape⟩ := mkHeader_ok hh
  subst hshape
  simp [natLE_length, mkDirectory_ok_length hdir]
  ring

theorem parseHeader_mkHeader {c : Codec} {schema : List (String × DType)}
    {sjson : List Nat} {numRows : Nat} {metas : List (Nat × Nat × Nat)}
    {h : List Nat} (hh : mkHeader c schema sjson numRows metas = .ok h)
    (hl : c.loads sjson = some ()) (rest : List Nat) :
    parseHeader c (h ++ rest) =
      .ok ⟨numRows, schema.length, expectedMetas schema metas numRows⟩ := by
  obtain ⟨dir, hdir, hsl, hnr, hnc, hshape⟩ := mkHeader_ok hh
  subst hshape
  unfold parseHeader
  simp only [List.append_assoc]
  have h12 : ([67, 70, 73, 76, 69, 118, 48, 49, 1, 0, 0, 0] : List Nat).length = 12 :=
    by decide
  rw [take_chunk _ _ h12, drop_chunk _ _ h12]
  simp only [h12, lt_self_iff_false, if_false,
    show rstripZeros (([67, 70, 73, 76, 69, 118, 48, 49, 1, 0, 0, 0] :
      List Nat).take 8) = MAGIC from by decide,
    show ([67, 70, 73, 76, 69, 118, 48, 49, 1, 0, 0, 0] : List Nat).getD 8 0 = 1
      from by decide,
    show ([67, 70, 73, 76, 69, 118, 48, 49, 1, 0, 0, 0] : List Nat).getD 9 0 = 0
      from by decide,
    ne_eq, not_true_eq_false, not_false_eq_true, if_true]
  rw [take_chunk _ _ (natLE_length 4 _), drop_chunk _ _ (natLE_length 4 _)]
  simp only [natLE_length, lt_self_iff_false, if_false, leVal_natLE hsl]
  rw [take_chunk sjson _ rfl, drop_chunk sjson _ rfl, hl]
  have h12' : (natLE 8 numRows).length + (natLE 4 schema.length).length = 12 := by
    simp [natLE_length]
  rw [take_chunk2 _ _ _ h12', drop_chunk2 _ _ _ h12']
  simp only [lt_self_iff_false, if_false,
    show ((natLE 8 numRows ++ natLE 4 schema.length).length) = 12 from by
      simp [natLE_length],
    take_chunk (natLE 8 numRows) _ (natLE_length 8 _),
    drop_chunk (natLE 8 numRows) _ (natLE_length 8 _),
    leVal_natLE hnr, leVal_natLE hnc]
  rw [mkDirectory_parseDir hdir rest]

/-! ### Layout arithmetic -/

theorem align8_eq (n : Nat) : align8 n = n + (8 - n % 8) % 8 := by
  unfold align8
  rcases Nat.eq_zero_or_pos (n % 8) with h | h
  · simp [h]
  · have h8 : n % 8 < 8 := Nat.mod_lt n (by norm_num)
    rw [if_neg (by omega)]
    omega

theorem le_align8 (n : Nat) : n ≤ align8 n := by
  rw [align8_eq]; omega

theorem align8_mod (n : Nat) : align8 n % 8 = 0 := by
  rw [align8_eq]
  have h8 : n % 8 < 8 := Nat.mod_lt n (by norm_num)
  omega

theorem drop_chunk_ge {α : Type} (a b : List α) (k : Nat) :
    (a ++ b).drop (a.length + k) = b.drop k := by
  rw [← List.drop_drop, drop_chunk a b rfl]

/-- The block written at the `i`-th planned offset is the `i`-th compressed
block: dropping `off - cur` bytes of the serialized block section exposes it. -/
theorem writeBlocks_layout :
    ∀ (comps : List (List Nat)) (cur i : Nat) (comp : List Nat) (off : Nat),
    comps[i]? = some comp →
    (planOffsets cur (comps.map List.length))[i]? = some off →
    cur ≤ off ∧
      ((writeBlocks cur comps).drop (off - cur)).take comp.length = comp := by
  intro comps
  induction comps with
  | nil => intro cur i comp off hc _; simp at hc
  | cons c0 rest ih =>
    intro cur i comp off hc hoff
    simp only [List.map_cons] at hoff
    cases i with
    | zero =>
      simp only [List.getElem?_cons_zero, Option.some.injEq] at hc hoff
      unfold planOffsets at hoff
      simp only [List.getElem?_cons_zero, Option.some.injEq] at hoff
      subst hc
      subst hoff
      refine ⟨le_refl _, ?_⟩
      simp only [Nat.sub_self, List.drop_zero]
      unfold writeBlocks
      rw [List.append_assoc]
      exact take_chunk _ _ rfl
    | succ j =>
      simp only [List.getElem?_cons_succ] at hc
      unfold planOffsets at hoff
      simp only [List.getElem?_cons_succ] at hoff
      obtain ⟨hle, hsl⟩ := ih (align8 (cur + c0.length)) j comp off hc hoff
      constructor
      · calc cur ≤ cur + c0.length := Nat.le_add_right _ _
          _ ≤ align8 (cur + c0.length) := le_align8 _
          _ ≤ off := hle
      · unfold writeBlocks
        rw [List.append_assoc]
        have hpl : (c0 ++ (List.replicate ((8 - (cur + c0.length) % 8) % 8) 0 ++
            writeBlocks (cur + c0.length + (8 - (cur + c0.length) % 8) % 8) rest))
            = (c0 ++ List.replicate ((8 - (cur + c0.length) % 8) % 8) 0) ++
              writeBlocks (cur + c0.length + (8 - (cur + c0.length) % 8) % 8) rest := by
          simp [List.append_assoc]
        rw [hpl]
        have hlen : (c0 ++ List.replicate ((8 - (cur + c0.length) % 8) % 8)
            0).length = align8 (cur + c0.length) - cur := by
          simp [List.length_append, List.length_replicate, align8_eq]
          omega
        have hoffsplit : off - cur =
            (c0 ++ List.replicate ((8 - (cur + c0.length) % 8) % 8) 0).length +
            (off - align8 (cur + c0.length)) := by
          rw [hlen]
          have := le_align8 (cur + c0.length)
          have h1 : cur ≤ align8 (cur + c0.length) := le_trans (Nat.le_add_right _ _) this
          omega
        rw [hoffsplit, drop_chunk_ge]
        have hpos : cur + c0.length + (8 - (cur + c0.length) % 8) % 8 =
            align8 (cur + c0.length) := (align8_eq _).symm
        rw [hpos]
        exact hsl

/-! ### Decoding an encoded block recovers the encoded values -/

theorem decodeIntsFrom_shift {b4 data : List Nat} (h : b4.length = 4) :
    ∀ n i, decodeIntsFrom (b4 ++ data) (i + 1) n = decodeIntsFrom data i n := by
  intro n
  induction n with
  | zero => intro i; rfl
  | succ n ih =>
    intro i
    unfold decodeIntsFrom
    rw [show 4 * (i + 1) = b4.length + 4 * i from by omega, drop_chunk_ge, ih]

theorem decodeFloatsFrom_shift {c : Codec} {b8 data : List Nat}
    (h : b8.length = 8) :
    ∀ n i, decodeFloatsFrom c (b8 ++ data) (i + 1) n =
      decodeFloatsFrom c data i n := by
  intro n
  induction n with
  | zero => intro i; rfl
  | succ n ih =>
    intro i
    unfold decodeFloatsFrom
    rw [show 8 * (i + 1) = b8.length + 8 * i from by omega, drop_chunk_ge, ih]

theorem decodeOffsFrom_shift {b4 data : List Nat} (h : b4.length = 4) :
    ∀ n i, decodeOffsFrom (b4 ++ data) (i + 1) n = decodeOffsFrom data i n := by
  intro n
  induction n with
  | zero => intro i; rfl
  | succ n ih =>
    intro i
    unfold decodeOffsFrom
    rw [show 4 * (i + 1) = b4.length + 4 * i from by omega, drop_chunk_ge, ih]

theorem decode_int_block {is : List Int}
    (hr : ∀ i ∈ is, -(2 ^ 31) ≤ i ∧ i < 2 ^ 31) :
    decodeIntsFrom ((is.map fun i => natLE 4 (i % 2 ^ 32).toNat).flatten) 0
      is.length = .ok (is.map CVal.vInt) := by
  induction is with
  | nil => rfl
  | cons i0 rest ih =>
    simp only [List.map_cons, List.flatten_cons, List.length_cons]
    unfold decodeIntsFrom
    rw [Nat.mul_zero, List.drop_zero, take_chunk _ _ (natLE_length 4 _)]
    obtain ⟨hlo, hhi⟩ := hr i0 (by simp)
    rw [decodeIntsFrom_shift (natLE_length 4 _),
      ih (fun i hi => hr i (by simp [hi]))]
    have hv := i32val_packI32 hlo hhi
    norm_num at hv
    simp [natLE_length, hv]

theorem decode_float_block {c : Codec} {qs : List ℚ}
    (hd : ∀ q ∈ qs, c.f64dec (c.f64enc q) = q) :
    decodeFloatsFrom c ((qs.map c.f64enc).flatten) 0 qs.length =
      .ok (qs.map CVal.vFloat) := by
  induction qs with
  | nil => rfl
  | cons q0 rest ih =>
    simp only [List.map_cons, List.flatten_cons, List.length_cons]
    unfold decodeFloatsFrom
    rw [Nat.mul_zero, List.drop_zero, take_chunk _ _ (c.f64enc_len q0)]
    rw [decodeFloatsFrom_shift (c.f64enc_len q0),
      ih (fun q hq => hd q (by simp [hq]))]
    simp [c.f64enc_len, hd q0 (by simp)]

theorem decode_offs_block {offs : List Nat} (hb : ∀ o ∈ offs, o < 256 ^ 4) :
    ∀ tail, decodeOffsFrom ((offs.map (natLE 4)).flatten ++ tail) 0 offs.length =
      .ok offs := by
  induction offs with
  | nil => intro tail; rfl
  | cons o0 rest ih =>
    intro tail
    simp only [List.map_cons, List.flatten_cons, List.length_cons,
      List.append_assoc]
    unfold decodeOffsFrom
    rw [Nat.mul_zero, List.drop_zero, take_chunk _ _ (natLE_length 4 _)]
    rw [decodeOffsFrom_shift (natLE_length 4 _),
      ih (fun o ho => hb o (by simp [ho])) tail]
    simp [natLE_length, leVal_natLE (hb o0 (by simp))]

theorem decodeStrSlices_spec {c : Codec} :
    ∀ (vs : List String) (pre : List Nat) (a : Nat), pre.length = a →
    decodeStrSlices c (pre ++ (vs.map c.utf8enc).flatten)
      (List.scanl (· + ·) a (vs.map fun v => (c.utf8enc v).length)) =
      .ok (vs.map CVal.vStr) := by
  intro vs
  induction vs with
  | nil => intro pre a ha; rfl
  | cons v0 rest ih =>
    intro pre a ha
    simp only [List.map_cons, List.flatten_cons, List.scanl_cons,
      List.singleton_append]
    have hsc : ∀ (b : Nat) (l : List Nat), ∃ t, List.scanl (· + ·) b l = b :: t := by
      intro b l
      cases l with
      | nil => exact ⟨[], rfl⟩
      | cons x xs =>
        exact ⟨List.scanl (· + ·) (b + x) xs,
          by rw [List.scanl_cons, List.singleton_append]⟩
    obtain ⟨t, ht⟩ := hsc (a + (c.utf8enc v0).length)
      (rest.map fun v => (c.utf8enc v).length)
    rw [ht]
    unfold decodeStrSlices
    rw [drop_chunk pre _ ha,
      show a + (c.utf8enc v0).length - a = (c.utf8enc v0).length from by omega,
      take_chunk _ _ rfl, c.utf8dec_enc]
    have hrec := ih (pre ++ c.utf8enc v0) (a + (c.utf8enc v0).length)
      (by simp [ha])
    rw [List.append_assoc] at hrec
    rw [ht] at hrec
    rw [hrec]

theorem mapExcept_pure {g : α → β} (l : List α) :
    mapExcept (fun a => (.ok (g a) : Except Err β)) l = .ok (l.map g) := by
  induction l with
  | nil => rfl
  | cons x xs ih => unfold mapExcept; rw [ih]; rfl

theorem mapExcept_cons_ok {f : α → Except Err β} {x : α} {xs : List α}
    {bs : List β} (h : mapExcept f (x :: xs) = .ok bs) :
    ∃ b bs2, f x = .ok b ∧ mapExcept f xs = .ok bs2 ∧ bs = b :: bs2 := by
  unfold mapExcept at h
  cases hfa : f x with
  | error e => rw [hfa] at h; cases h
  | ok b =>
    rw [hfa] at h
    cases hrest : mapExcept f xs with
    | error e => rw [hrest] at h; cases h
    | ok bs2 =>
      rw [hrest] at h
      cases h
      exact ⟨b, bs2, rfl, rfl, rfl⟩

theorem mapExcept_cons_of {f : α → Except Err β} {x : α} {xs : List α}
    {b : β} {bs2 : List β} (hx : f x = .ok b) (hxs : mapExcept f xs = .ok bs2) :
    mapExcept f (x :: xs) = .ok (b :: bs2) := by
  unfold mapExcept
  rw [hx, hxs]

theorem mapExcept_map_ok {f : α → Except Err β} {g : β → γ} {l : List α}
    {bs : List β} (h : mapExcept f l = .ok bs) :
    mapExcept (fun a => (f a).map g) l = .ok (bs.map g) := by
  induction l generalizing bs with
  | nil => cases h; rfl
  | cons x xs ih =>
    obtain ⟨b, bs2, hx, hxs, hbs⟩ := mapExcept_cons_ok h
    subst hbs
    rw [List.map_cons]
    exact mapExcept_cons_of (by rw [hx]; rfl) (ih hxs)

theorem mapExcept_ok_mem {f : α → Except Err β} {l : List α} {bs : List β}
    (h : mapExcept f l = .ok bs) :
    ∀ a ∈ l, ∃ b ∈ bs, f a = .ok b := by
  intro a ha
  obtain ⟨i, hi⟩ := List.get_of_mem ha
  have hga : l[i.1]? = some a := by
    rw [List.getElem?_eq_getElem i.2]
    simpa using congrArg some hi
  obtain ⟨b, hb, hfb⟩ := mapExcept_ok_get h i.1 a hga
  exact ⟨b, List.getElem?_mem hb, hfb⟩

theorem mapExcept_ok_of_get {f : α → Except Err β} {l : List α} {bs : List β}
    (hlen : bs.length = l.length)
    (h : ∀ (i : Nat) (a : α), l[i]? = some a →
      ∃ b, bs[i]? = some b ∧ f a = .ok b) :
    mapExcept f l = .ok bs := by
  induction l generalizing bs with
  | nil => cases bs with
    | nil => rfl
    | cons b bs2 => simp at hlen
  | cons x xs ih =>
    cases bs with
    | nil => simp at hlen
    | cons b bs2 =>
      obtain ⟨b0, hb0, hfx⟩ := h 0 x (by simp)
      simp only [List.getElem?_cons_zero, Option.some.injEq] at hb0
      subst hb0
      exact mapExcept_cons_of hfx (ih (by simpa using hlen) (fun i a ha => by
        obtain ⟨bb, hbb, hfbb⟩ := h (i + 1) a (by simpa using ha)
        exact ⟨bb, by simpa using hbb, hfbb⟩))

/-! ### What a successful block build looks like, per dtype -/

theorem mapExcept_packI32_inv {c : Codec} {vs : List String} {bs : List (List Nat)}
    (h : mapExcept (fun v => do packI32 (← int32ValueOf c v)) vs = .ok bs) :
    ∃ is : List Int, mapExcept (int32ValueOf c) vs = .ok is ∧
      (∀ i ∈ is, -(2 ^ 31) ≤ i ∧ i < 2 ^ 31) ∧
      bs = is.map fun i => natLE 4 (i % 2 ^ 32).toNat := by
  induction vs generalizing bs with
  | nil => cases h; exact ⟨[], rfl, by simp, rfl⟩
  | cons v vs2 ih =>
    obtain ⟨b, bs2, hx, hxs, hbs⟩ := mapExcept_cons_ok h
    subst hbs
    obtain ⟨i0, hi0, hp⟩ := bind_ok_inv hx
    obtain ⟨⟨hlo, hhi⟩, hb⟩ := packI32_ok hp
    obtain ⟨is2, his2, hr2, hbs2⟩ := ih hxs
    refine ⟨i0 :: is2, mapExcept_cons_of hi0 his2, ?_, ?_⟩
    · intro i hi
      rcases List.mem_cons.mp hi with h1 | h1
      · subst h1; exact ⟨hlo, hhi⟩
      · exact hr2 i h1
    · subst hb hbs2; rfl

theorem mapExcept_packU32_inv {l : List Nat} {bs : List (List Nat)}
    (h : mapExcept packU32 l = .ok bs) :
    (∀ o ∈ l, o < 256 ^ 4) ∧ bs = l.map (natLE 4) := by
  induction l generalizing bs with
  | nil => cases h; exact ⟨by simp, rfl⟩
  | cons o l2 ih =>
    obtain ⟨b, bs2, hx, hxs, hbs⟩ := mapExcept_cons_ok h
    subst hbs
    obtain ⟨ho, hb⟩ := packU32_ok hx
    obtain ⟨hl2, hbs2⟩ := ih hxs
    refine ⟨?_, by subst hb hbs2; rfl⟩
    intro x hx2
    rcases List.mem_cons.mp hx2 with h1 | h1
    · subst h1; exact ho
    · exact hl2 x h1

theorem float64ValueOf_dec {c : Codec} {v : String} {q : ℚ}
    (h : float64ValueOf c v = .ok q) : c.f64dec (c.f64enc q) = q := by
  unfold float64ValueOf at h
  split at h
  · cases h; exact c.f64dec_enc_zero
  · cases hp : c.pyFloatP v with
    | none => rw [hp] at h; cases h
    | some q2 =>
      rw [hp] at h
      cases h
      exact c.f64dec_enc v _ hp

/-- The type coercion the round-trip property is stated against (spec §8):
INT32 and FLOAT64 cells compare as the parsed numbers produced by the
encoder's own coercions, STRING cells as the original strings. -/
def coerceValue (c : Codec) (t : DType) (v : String) : Except Err CVal :=
  match t with
  | .int32 => (int32ValueOf c v).map CVal.vInt
  | .float64 => (float64ValueOf c v).map CVal.vFloat
  | .str => .ok (CVal.vStr v)

theorem flatten_natLE4_length (offs : List Nat) :
    ((offs.map (natLE 4)).flatten).length = 4 * offs.length := by
  induction offs with
  | nil => rfl
  | cons o rest ih => simp [natLE_length, ih]; ring

theorem mapExcept_ok_mem_rev {f : α → Except Err β} {l : List α} {bs : List β}
    (h : mapExcept f l = .ok bs) :
    ∀ b ∈ bs, ∃ a ∈ l, f a = .ok b := by
  induction l generalizing bs with
  | nil => cases h; intro b hb; simp at hb
  | cons x xs ih =>
    obtain ⟨b0, bs2, hx, hxs, hbs⟩ := mapExcept_cons_ok h
    subst hbs
    intro b hb
    rcases List.mem_cons.mp hb with h1 | h1
    · subst h1; exact ⟨x, by simp, hx⟩
    · obtain ⟨a, ha, hfa⟩ := ih hxs b h1
      exact ⟨a, by simp [ha], hfa⟩

/-- Decoding a successfully built block under the column's dtype tag and
value count recovers exactly the coerced cell values. -/
theorem decode_build {c : Codec} {t : DType} {vs : List String} {block : List Nat}
    (h : buildUncompressedBlock c t vs = .ok block) :
    ∃ cvs : List CVal, mapExcept (coerceValue c t) vs = .ok cvs ∧
      decodeByTag c t.tag vs.length block = .ok cvs := by
  cases t with
  | int32 =>
    unfold buildUncompressedBlock at h
    obtain ⟨bs, hbs, hfl⟩ := bind_ok_inv h
    cases hfl
    obtain ⟨is, his, hr, hbs2⟩ := mapExcept_packI32_inv hbs
    subst hbs2
    refine ⟨is.map CVal.vInt, mapExcept_map_ok his, ?_⟩
    have hlen : is.length = vs.length := mapExcept_ok_length his
    show decodeIntsFrom _ 0 vs.length = _
    rw [← hlen]
    exact decode_int_block hr
  | float64 =>
    unfold buildUncompressedBlock at h
    obtain ⟨qs, hqs, hfl⟩ := bind_ok_inv h
    cases hfl
    refine ⟨qs.map CVal.vFloat, mapExcept_map_ok hqs, ?_⟩
    have hlen : qs.length = vs.length := mapExcept_ok_length hqs
    have hd : ∀ q ∈ qs, c.f64dec (c.f64enc q) = q := by
      intro q hq
      obtain ⟨v, _, hfv⟩ := mapExcept_ok_mem_rev hqs q hq
      exact float64ValueOf_dec hfv
    show decodeFloatsFrom c _ 0 vs.length = _
    rw [← hlen]
    exact decode_float_block hd
  | str =>
    unfold buildUncompressedBlock at h
    obtain ⟨offB, hoffB, hfl⟩ := bind_ok_inv h
    cases hfl
    obtain ⟨hb, hoffB2⟩ := mapExcept_packU32_inv hoffB
    subst hoffB2
    refine ⟨vs.map CVal.vStr, ?_, ?_⟩
    · have : (fun v => (.ok (CVal.vStr v) : Except Err CVal)) = coerceValue c .str :=
        rfl
      rw [← this]
      exact mapExcept_pure vs
    · show decodeStrings c vs.length _ = _
      unfold decodeStrings
      have hslen : (stringOffsets c vs).length = vs.length + 1 := by
        unfold stringOffsets
        rw [List.length_scanl, List.length_map]
      rw [show vs.length + 1 = (stringOffsets c vs).length from hslen.symm,
        decode_offs_block hb _]
      have hdlen : (((stringOffsets c vs).map (natLE 4)).flatten).length =
          4 * (stringOffsets c vs).length := flatten_natLE4_length _
      rw [drop_chunk _ _ (by rw [hdlen])]
      have := @decodeStrSlices_spec c vs [] 0 rfl
      rw [List.nil_append] at this
      unfold stringOffsets
      exact this

theorem mkDirectory_ok_lengths {c : Codec} {schema : List (String × DType)}
    {metas : List (Nat × Nat × Nat)} {nr : Nat} {dir : List Nat}
    (h : mkDirectory c schema metas nr = .ok dir) :
    schema.length ≤ metas.length := by
  induction schema generalizing metas dir with
  | nil => simp
  | cons p ss ih =>
    obtain ⟨n, t⟩ := p
    cases metas with
    | nil => cases h
    | cons m ms =>
      obtain ⟨e, rest, _, hrest, _⟩ := mkDirectory_ok_cons h
      simpa using ih hrest

/-- Inversion of a successful `write_cfile`: the intermediate artifacts and
the byte layout of the produced file. -/
theorem writeCfile_inv {c : Codec} {schema : List (String × DType)}
    {columns : List (List String)} {file : List Nat}
    (hw : writeCfile c schema columns = .ok file) :
    ∃ col0 blocks h0 h,
      columns.head? = some col0 ∧
      mapExcept (fun p => buildUncompressedBlock c p.1.2 p.2)
        (schema.zip columns) = .ok blocks ∧
      mkHeader c schema (c.dumpsSchema schema) col0.length
        (List.replicate schema.length (0, 0, 0)) = .ok h0 ∧
      mkHeader c schema (c.dumpsSchema schema) col0.length
        ((planOffsets (h0.length + (8 - h0.length % 8) % 8)
            ((blocks.map c.comp).map List.length)).zip
          (((blocks.map c.comp).map List.length).zip
            (blocks.map List.length))) = .ok h ∧
      file = h ++ List.replicate ((8 - h0.length % 8) % 8) 0 ++
        writeBlocks (h.length + (8 - h0.length % 8) % 8) (blocks.map c.comp) := by
  unfold writeCfile at hw
  obtain ⟨col0, hcol0, hw⟩ := bind_ok_inv hw
  try simp only [] at hw
  obtain ⟨blocks, hblocks, hw⟩ := bind_ok_inv hw
  try simp only [] at hw
  obtain ⟨h0, hh0, hw⟩ := bind_ok_inv hw
  try simp only [] at hw
  obtain ⟨h, hh, hw⟩ := bind_ok_inv hw
  try simp only [] at hw
  cases hw
  refine ⟨col0, blocks, h0, h, ?_, hblocks, hh0, hh, rfl⟩
  unfold headOrIndexError at hcol0
  cases hhead : columns.head? with
  | none => rw [hhead] at hcol0; cases hcol0
  | some x => rw [hhead] at hcol0; cases hcol0; rfl

theorem expectedMetas_names {schema : List (String × DType)}
    {metas : List (Nat × Nat × Nat)} {nv : Nat}
    (h : schema.length ≤ metas.length) :
    (expectedMetas schema metas nv).map (·.name) = schema.map Prod.fst := by
  unfold expectedMetas
  rw [List.map_map]
  have : ((fun (m : ColumnMeta) => m.name) ∘
      (fun p : (String × DType) × Nat × Nat × Nat =>
        (⟨p.1.1, p.1.2.tag, p.2.1, p.2.2.1, p.2.2.2, nv⟩ : ColumnMeta))) =
      (Prod.fst ∘ Prod.fst) := rfl
  rw [this, ← List.map_map, List.map_fst_zip _ _ h]

theorem expectedMetas_length {schema : List (String × DType)}
    {metas : List (Nat × Nat × Nat)} {nv : Nat} :
    (expectedMetas schema metas nv).length = min schema.length metas.length := by
  simp [expectedMetas]

theorem expectedMetas_get {schema : List (String × DType)}
    {metas : List (Nat × Nat × Nat)} {nv : Nat} {j : Nat} {p : String × DType}
    {m : Nat × Nat × Nat} (hs : schema[j]? = some p) (hm : metas[j]? = some m) :
    (expectedMetas schema metas nv)[j]? =
      some ⟨p.1, p.2.tag, m.1, m.2.1, m.2.2, nv⟩ := by
  unfold expectedMetas
  have hz : (schema.zip metas)[j]? = some (p, m) :=
    List.getElem?_zip_eq_some.mpr ⟨hs, hm⟩
  rw [List.getElem?_map, hz]
  rfl

theorem findMeta_nodup {metas : List ColumnMeta}
    (hnd : (metas.map (·.name)).Nodup) :
    ∀ (i : Nat) (m : ColumnMeta), metas[i]? = some m →
      findMeta metas m.name = some m := by
  induction metas with
  | nil => intro i m h; simp at h
  | cons m0 rest ih =>
    intro i m h
    simp only [List.map_cons, List.nodup_cons] at hnd
    cases i with
    | zero =>
      simp only [List.getElem?_cons_zero, Option.some.injEq] at h
      subst h
      unfold findMeta
      simp [List.find?_cons_of_pos]
    | succ j =>
      simp only [List.getElem?_cons_succ] at h
      have hmem : m ∈ rest := List.getElem?_mem h
      have hne : m0.name ≠ m.name := by
        intro he
        exact hnd.1 (he ▸ List.mem_map_of_mem (·.name) hmem)
      unfold findMeta
      rw [List.find?_cons_of_neg _ (by simpa using hne)]
      exact ih hnd.2 j m h

theorem mapExcept_congr_pure {f : α → Except Err β} {g : α → β} {l : List α}
    (h : ∀ a ∈ l, f a = .ok (g a)) : mapExcept f l = .ok (l.map g) := by
  induction l with
  | nil => rfl
  | cons x xs ih =>
    rw [List.map_cons]
    exact mapExcept_cons_of (h x (by simp)) (ih fun a ha => h a (by simp [ha]))

theorem buildRowAux_spec {i : Nat} :
    ∀ (pairs : List (String × List CVal)) (acc : Row),
    (∀ p ∈ pairs, ∀ q ∈ acc, q.1 ≠ p.1) →
    (pairs.map Prod.fst).Nodup →
    (∀ p ∈ pairs, i < p.2.length) →
    buildRowAux i pairs acc =
      .ok (acc ++ pairs.map fun p => (p.1, p.2.getD i (CVal.vInt 0))) := by
  intro pairs
  induction pairs with
  | nil => intro acc _ _ _; simp [buildRowAux]
  | cons p0 rest ih =>
    intro acc hdisj hnd hlen
    obtain ⟨n, cv⟩ := p0
    have hi : i < cv.length := hlen (n, cv) (by simp)
    unfold buildRowAux
    rw [List.getElem?_eq_getElem hi]
    have hins : dictInsert acc n (cv[i]) = acc ++ [(n, cv[i])] := by
      unfold dictInsert
      rw [if_neg]
      simp only [List.any_eq_true, not_exists, not_and]
      intro q hq
      simpa using hdisj (n, cv) (by simp) q hq
    simp only [List.map_cons, List.nodup_cons] at hnd
    have hrec := ih (acc ++ [(n, cv[i])])
      (fun p hp q hq => by
        rcases List.mem_append.mp hq with h1 | h1
        · exact hdisj p (by simp [hp]) q h1
        · simp only [List.mem_singleton] at h1
          subst h1
          intro he
          refine hnd.1 ?_
          rw [show n = p.1 from he]
          exact List.mem_map_of_mem Prod.fst hp)
      hnd.2
      (fun p hp => hlen p (by simp [hp]))
    show buildRowAux i rest (dictInsert acc n (cv[i])) = _
    rw [hins, hrec]
    simp [List.getD_eq_getElem _ _ hi, List.getElem?_eq_getElem hi]

/-- The round-trip reference value (spec §8): coerce every cell of the table
per its column type, then form one name-to-value row per row index. -/
def specRows (c : Codec) (schema : List (String × DType))
    (columns : List (List String)) (n : Nat) : Except Err (List Row) :=
  match mapExcept (fun p => mapExcept (coerceValue c p.1.2) p.2)
      (schema.zip columns) with
  | .error e => .error e
  | .ok ccols => .ok ((List.range n).map fun i =>
      ((schema.zip columns).map fun p => p.1.1).zip
        (ccols.map fun col => col.getD i (CVal.vInt 0)))

theorem planOffsets_length : ∀ (cur : Nat) (sizes : List Nat),
    (planOffsets cur sizes).length = sizes.length
  | _, [] => rfl
  | cur, sz :: rest => by
    unfold planOffsets
    simp [planOffsets_length _ rest]

/-- Claim C1: for every schema (with the unique column names the data model
prescribes) and every table of equal-length columns, writing with
`write_cfile` and reading back with `CFileReader.read_all` yields exactly the
type-coerced rows: INT32/FLOAT64 cells as the parsed numbers (empty numeric
fields as 0 / 0.0) and STRING cells as the original strings. -/
theorem C1_roundtrip {c : Codec} {schema : List (String × DType)}
    {columns : List (List String)} {numRows : Nat} {file : List Nat}
    (hnd : (schema.map Prod.fst).Nodup)
    (hcl : ∀ col ∈ columns, col.length = numRows)
    (hw : writeCfile c schema columns = .ok file) :
    ∃ hi rows, parseHeader c file = .ok hi ∧ readAll c file hi = .ok rows ∧
      specRows c schema columns numRows = .ok rows := by
  obtain ⟨col0, blocks, h0, h, hcol0, hblocks, hh0, hh, hfile⟩ := writeCfile_inv hw
  -- abbreviations
  set comps := blocks.map c.comp with hcomps
  set csizes := comps.map List.length with hcsizes
  set usizes := blocks.map List.length with husizes
  set pad := (8 - h0.length % 8) % 8 with hpad
  set offs := planOffsets (h0.length + pad) csizes with hoffs
  set metasT := offs.zip (csizes.zip usizes) with hmetasT
  -- numRows
  have hmem0 : col0 ∈ columns := by
    cases columns with
    | nil => cases hcol0
    | cons x xs =>
      simp only [List.head?_cons, Option.some.injEq] at hcol0
      simp [hcol0]
  have hnr : col0.length = numRows := hcl col0 hmem0
  -- length bookkeeping
  have hblen : blocks.length = (schema.zip columns).length :=
    mapExcept_ok_length hblocks
  obtain ⟨dir, hdirOk, _, _, _, _⟩ := mkHeader_ok hh
  have hsm : schema.length ≤ metasT.length := mkDirectory_ok_lengths hdirOk
  have hmlen : metasT.length = blocks.length := by
    rw [hmetasT, List.length_zip, hoffs, planOffsets_length, hcsizes,
      List.length_zip, husizes]
    simp [hcomps]
  have hbs : blocks.length = schema.length := by
    rw [hblen, List.length_zip]
    rw [hmlen, hblen, List.length_zip] at hsm
    omega
  have hsc : schema.length ≤ columns.length := by
    rw [hmlen, hbs] at hsm
    rw [hblen, List.length_zip] at hbs
    omega
  have hzlen : (schema.zip columns).length = schema.length := by
    rw [List.length_zip]; omega
  -- header lengths agree
  have hlen_eq : h.length = h0.length := by
    rw [mkHeader_ok_length hh, mkHeader_ok_length hh0]
  -- parse
  have hparse : parseHeader c file =
      .ok ⟨col0.length, schema.length, expectedMetas schema metasT col0.length⟩ := by
    rw [hfile, List.append_assoc]
    exact parseHeader_mkHeader hh (c.loads_dumps schema) _
  set ems := expectedMetas schema metasT col0.length with hems
  -- names
  have hnames : ems.map (·.name) = schema.map Prod.fst :=
    expectedMetas_names hsm
  -- coerced columns exist
  obtain ⟨ccols, hccols⟩ : ∃ ccols,
      mapExcept (fun p => mapExcept (coerceValue c p.1.2) p.2)
        (schema.zip columns) = .ok ccols := by
    apply mapExcept_ok_of_forall
    intro p hp
    obtain ⟨block, _, hbuild⟩ := mapExcept_ok_mem hblocks p hp
    obtain ⟨cvs, hcvs, _⟩ := decode_build hbuild
    exact ⟨cvs, hcvs⟩
  have hcclen : ccols.length = schema.length := by
    rw [mapExcept_ok_length hccols, hzlen]
  -- each coerced column has numRows values
  have hccrows : ∀ cc ∈ ccols, cc.length = numRows := by
    intro cc hcc
    obtain ⟨p, hp, hcp⟩ := mapExcept_ok_mem_rev hccols cc hcc
    have : p.2 ∈ columns := (List.of_mem_zip hp).2
    rw [mapExcept_ok_length hcp]
    exact hcl p.2 this
  -- the per-column reads
  have hreads : mapExcept (readColumn c file
      ⟨col0.length, schema.length, ems⟩) (ems.map (·.name)) = .ok ccols := by
    apply mapExcept_ok_of_get
    · rw [hcclen, List.length_map, hems, expectedMetas_length]
      omega
    · intro j nm hj
      -- the j-th column of the schema
      have hjlt : j < schema.length := by
        have hlt := (List.getElem?_eq_some_iff.mp hj).1
        simp only [hems, List.length_map, expectedMetas_length, lt_min_iff] at hlt
        exact hlt.1
      obtain ⟨p, hsj⟩ : ∃ p, schema[j]? = some p :=
        ⟨schema[j], List.getElem?_eq_getElem hjlt⟩
      obtain ⟨colj, hcj⟩ : ∃ colj, columns[j]? = some colj := by
        have hlt : j < columns.length := by omega
        exact ⟨columns[j], List.getElem?_eq_getElem hlt⟩
      have hzj : (schema.zip columns)[j]? = some (p, colj) :=
        List.getElem?_zip_eq_some.mpr ⟨hsj, hcj⟩
      obtain ⟨blockj, hbj, hbuild⟩ := mapExcept_ok_get hblocks j _ hzj
      obtain ⟨ccj, hccj, hcoerce⟩ := mapExcept_ok_get hccols j _ hzj
      obtain ⟨cvs, hcvs, hdec⟩ := decode_build hbuild
      have hcc_eq : cvs = ccj := by
        rw [hcoerce] at hcvs
        exact ((Except.ok.injEq _ _).mp hcvs).symm
      -- directory components
      have hcompj : comps[j]? = some (c.comp blockj) := by
        rw [hcomps, List.getElem?_map, hbj]; rfl
      have hcsj : csizes[j]? = some (c.comp blockj).length := by
        rw [hcsizes, List.getElem?_map, hcompj]; rfl
      have husj : usizes[j]? = some blockj.length := by
        rw [husizes, List.getElem?_map, hbj]; rfl
      obtain ⟨offj, hoffj⟩ : ∃ o, offs[j]? = some o := by
        have : j < offs.length := by
          rw [hoffs, planOffsets_length, hcsizes, List.length_map, hcomps,
            List.length_map]
          omega
        exact ⟨offs[j], List.getElem?_eq_getElem this⟩
      have hmj : metasT[j]? = some (offj, (c.comp blockj).length, blockj.length) := by
        rw [hmetasT]
        exact List.getElem?_zip_eq_some.mpr ⟨hoffj,
          List.getElem?_zip_eq_some.mpr ⟨hcsj, husj⟩⟩
      have hemj : ems[j]? = some ⟨p.1, p.2.tag, offj, (c.comp blockj).length,
          blockj.length, col0.length⟩ := by
        rw [hems]
        exact expectedMetas_get hsj hmj
      -- name at j
      have hnmj : nm = p.1 := by
        rw [List.getElem?_map, hemj] at hj
        simpa using hj.symm
      -- find the meta
      have hfind : findMeta ems nm = some ⟨p.1, p.2.tag, offj,
          (c.comp blockj).length, blockj.length, col0.length⟩ := by
        rw [hnmj]
        have := findMeta_nodup (by rw [hnames]; exact hnd) j _ hemj
        exact this
      -- layout: the compressed span
      have hstart : (h ++ List.replicate pad 0).length = h.length + pad := by
        simp
      have hoffj2 : (planOffsets (h.length + pad)
          (comps.map List.length))[j]? = some offj := by
        rw [hoffs, hcsizes] at hoffj
        rw [← hlen_eq] at hoffj
        exact hoffj
      have hlay := writeBlocks_layout comps (h.length + pad) j (c.comp blockj)
        offj hcompj hoffj2
      obtain ⟨hle, hslice⟩ := hlay
      have hdropfile : file.drop offj =
          (writeBlocks (h.length + pad) comps).drop (offj - (h.length + pad)) := by
        have hd := drop_chunk_ge (h ++ List.replicate pad 0)
          (writeBlocks (h.length + pad) comps) (offj - (h.length + pad))
        rw [hstart] at hd
        rw [show h.length + pad + (offj - (h.length + pad)) = offj from by omega]
          at hd
        rw [hfile]
        exact hd
      -- the uncompressed read
      have hrcu : readColumnUncompressed c file ⟨p.1, p.2.tag, offj,
          (c.comp blockj).length, blockj.length, col0.length⟩ = .ok blockj := by
        unfold readColumnUncompressed
        simp only [hdropfile, hslice]
        rw [if_neg (by simp), c.decomp_comp]
        simp
      -- assemble readColumn
      refine ⟨ccj, hccj, ?_⟩
      unfold readColumn
      simp only [hfind, hrcu]
      have hcolj_len : colj.length = col0.length := by
        rw [hnr]
        exact hcl colj (List.getElem?_mem hcj)
      rw [← hcolj_len, ← hcc_eq]
      exact hdec
  -- the row loop
  have hnlen : (ems.map (·.name)).length = ccols.length := by
    rw [hnames, List.length_map, hcclen]
  have hrowfun : ∀ i ∈ List.range col0.length,
      buildRowAux i ((ems.map (·.name)).zip ccols) [] =
        .ok ((ems.map (·.name)).zip
          (ccols.map fun col => col.getD i (CVal.vInt 0))) := by
    intro i hi
    have hilt : i < col0.length := List.mem_range.mp hi
    have hspec := buildRowAux_spec ((ems.map (·.name)).zip ccols) []
      (by intro p hp q hq; simp at hq)
      (by rw [List.map_fst_zip _ _ (le_of_eq hnlen), hnames]; exact hnd)
      (by
        intro p hp
        have hmemc : p.2 ∈ ccols := (List.of_mem_zip hp).2
        rw [hccrows p.2 hmemc, ← hnr]
        exact hilt)
    rw [hspec, List.nil_append]
    congr 1
    rw [List.zip_map_right]
    rfl
  have hrows : mapExcept
      (fun i => buildRowAux i ((ems.map (·.name)).zip ccols) [])
      (List.range col0.length) =
      .ok ((List.range col0.length).map fun i =>
        (ems.map (·.name)).zip (ccols.map fun col => col.getD i (CVal.vInt 0))) :=
    mapExcept_congr_pure hrowfun
  have hnz : ((schema.zip columns).map fun p => p.1.1) = schema.map Prod.fst := by
    have hmm : ((schema.zip columns).map fun p => p.1.1) =
        ((schema.zip columns).map Prod.fst).map Prod.fst := by
      rw [List.map_map]; rfl
    rw [hmm, List.map_fst_zip _ _ hsc]
  refine ⟨⟨col0.length, schema.length, ems⟩,
    (List.range col0.length).map fun i =>
      (ems.map (·.name)).zip (ccols.map fun col => col.getD i (CVal.vInt 0)),
    hparse, ?_, ?_⟩
  · unfold readAll
    simp only [hreads]
    exact hrows
  · unfold specRows
    rw [hccols]
    simp only [hnz, ← hnames, ← hnr]

/-- The spec §8 example: schema `[id:INT32, score:FLOAT64, name:STRING]`. -/
def exSchemaC1 : List (String × DType) :=
  [("id", .int32), ("score", .float64), ("name", .str)]

/-- The spec §8 example columns: rows `(1, 2.5, "a")` and `(2, <empty>, "bb")`. -/
def exColsC1 : List (List String) := [["1", "2"], ["2.5", ""], ["a", "bb"]]

/-- The file `write_cfile` produces from the §8 example under `exC`: the
108-byte JSON schema blob, the global metadata, the three directory entries
(block offsets 256, 264, 280), the header padding and the three blocks. -/
def exFileC1 : List Nat :=
  [67, 70, 73, 76, 69, 118, 48, 49, 1, 0, 0, 0, 108, 0, 0, 0, 123, 34, 99, 111, 108, 117, 109, 110, 115, 34, 58, 91, 123, 34, 110, 97, 109, 101, 34, 58, 34, 105, 100, 34, 44, 34, 116, 121, 112, 101, 34, 58, 34, 73, 78, 84, 51, 50, 34, 125, 44, 123, 34, 110, 97, 109, 101, 34, 58, 34, 115, 99, 111, 114, 101, 34, 44, 34, 116, 121, 112, 101, 34, 58, 34, 70, 76, 79, 65, 84, 54, 52, 34, 125, 44, 123, 34, 110, 97, 109, 101, 34, 58, 34, 110, 97, 109, 101, 34, 44, 34, 116, 121, 112, 101, 34, 58, 34, 83, 84, 82, 73, 78, 71, 34, 125, 93, 125, 2, 0, 0, 0, 0, 0, 0, 0, 3, 0, 0, 0, 2, 0, 105, 100, 0, 0, 1, 0, 0, 0, 0, 0, 0, 8, 0, 0, 0, 0, 0, 0, 0, 8, 0, 0, 0, 0, 0, 0, 0, 2, 0, 0, 0, 0, 0, 0, 0, 5, 0, 115, 99, 111, 114, 101, 1, 8, 1, 0, 0, 0, 0, 0, 0, 16, 0, 0, 0, 0, 0, 0, 0, 16, 0, 0, 0, 0, 0, 0, 0, 2, 0, 0, 0, 0, 0, 0, 0, 4, 0, 110, 97, 109, 101, 2, 24, 1, 0, 0, 0, 0, 0, 0, 15, 0, 0, 0, 0, 0, 0, 0, 15, 0, 0, 0, 0, 0, 0, 0, 2, 0, 0, 0, 0, 0, 0, 0, 0, 0, 0, 0, 1, 0, 0, 0, 2, 0, 0, 0, 3, 0, 0, 0, 0, 0, 0, 0, 0, 0, 0, 0, 0, 0, 0, 0, 0, 0, 0, 0, 1, 0, 0, 0, 3, 0, 0, 0, 97, 98, 98, 0]

set_option maxRecDepth 10000 in
/-- Witness for C1 at the spec §8 example. -/
theorem C1_roundtrip_witness :
    writeCfile exC exSchemaC1 exColsC1 = .ok exFileC1 ∧
    ∃ hi rows, parseHeader exC exFileC1 = .ok hi ∧
      readAll exC exFileC1 hi = .ok rows ∧
      specRows exC exSchemaC1 exColsC1 2 = .ok rows :=
  ⟨rfl, C1_roundtrip (by decide) (by decide) rfl⟩

/-! ### Claim C2: alignment of the planned layout -/

theorem planOffsets_mod {cur : Nat} (hc : cur % 8 = 0) :
    ∀ sizes, ∀ o ∈ planOffsets cur sizes, o % 8 = 0 := by
  intro sizes
  induction sizes generalizing cur with
  | nil => intro o ho; cases ho
  | cons s rest ih =>
    intro o ho
    unfold planOffsets at ho
    rcases List.mem_cons.mp ho with h1 | h1
    · subst h1; exact hc
    · exact ih (align8_mod _) o h1

theorem planOffsets_get_zero {cur : Nat} {sizes : List Nat} {o : Nat}
    (h : (planOffsets cur sizes)[0]? = some o) : o = cur := by
  cases sizes with
  | nil => cases h
  | cons s rest =>
    unfold planOffsets at h
    simpa using h.symm

theorem planOffsets_succ :
    ∀ (sizes : List Nat) (cur i o1 sz o2 : Nat),
    (planOffsets cur sizes)[i]? = some o1 → sizes[i]? = some sz →
    (planOffsets cur sizes)[i + 1]? = some o2 →
    o2 = align8 (o1 + sz) := by
  intro sizes
  induction sizes with
  | nil => intro cur i o1 sz o2 h1; cases h1
  | cons s rest ih =>
    intro cur i o1 sz o2 h1 hsz h2
    unfold planOffsets at h1 h2
    cases i with
    | zero =>
      simp only [List.getElem?_cons_zero, Option.some.injEq] at h1 hsz
      simp only [List.getElem?_cons_succ] at h2
      subst h1 hsz
      exact (planOffsets_get_zero h2).symm ▸ rfl
    | succ j =>
      simp only [List.getElem?_cons_succ] at h1 hsz h2
      exact ih _ j o1 sz o2 h1 hsz h2

theorem expectedMetas_get_inv {schema : List (String × DType)}
    {metas : List (Nat × Nat × Nat)} {nv : Nat} {j : Nat} {m : ColumnMeta}
    (h : (expectedMetas schema metas nv)[j]? = some m) :
    ∃ p mt, schema[j]? = some p ∧ metas[j]? = some mt ∧
      m = ⟨p.1, p.2.tag, mt.1, mt.2.1, mt.2.2, nv⟩ := by
  unfold expectedMetas at h
  rw [List.getElem?_map] at h
  cases hz : (schema.zip metas)[j]? with
  | none => rw [hz] at h; cases h
  | some q =>
    rw [hz] at h
    obtain ⟨hs, hm⟩ := List.getElem?_zip_eq_some.mp hz
    simp only [Option.map_some', Option.some.injEq] at h
    exact ⟨q.1, q.2, hs, hm, h.symm⟩

/-- Claim C2: in every file produced by `write_cfile`, each directory entry's
block offset is a multiple of 8; the serialized header length (fixed prefix +
schema blob + directory) plus its zero padding equals the first block's
offset exactly; and each later block's offset is the previous block's end
(offset + compressed size) padded up to the next multiple of 8. -/
theorem C2_alignment {c : Codec} {schema : List (String × DType)}
    {columns : List (List String)} {file : List Nat} {hi : HeaderInfo}
    (hw : writeCfile c schema columns = .ok file)
    (hp : parseHeader c file = .ok hi) :
    (∀ m ∈ hi.cols, m.blockOffset % 8 = 0) ∧
    (∃ h0, mkHeader c schema (c.dumpsSchema schema) (columns.headD []).length
        (List.replicate schema.length (0, 0, 0)) = .ok h0 ∧
      ∀ m0, hi.cols.head? = some m0 →
        m0.blockOffset = h0.length + (8 - h0.length % 8) % 8) ∧
    (∀ (i : Nat) (m1 m2 : ColumnMeta), hi.cols[i]? = some m1 →
      hi.cols[i + 1]? = some m2 →
      m2.blockOffset = align8 (m1.blockOffset + m1.compressedSize)) := by
  obtain ⟨col0, blocks, h0, h, hcol0, hblocks, hh0, hh, hfile⟩ := writeCfile_inv hw
  set comps := blocks.map c.comp with hcomps
  set csizes := comps.map List.length with hcsizes
  set usizes := blocks.map List.length with husizes
  set pad := (8 - h0.length % 8) % 8 with hpad
  set offs := planOffsets (h0.length + pad) csizes with hoffs
  set metasT := offs.zip (csizes.zip usizes) with hmetasT
  have hparse : parseHeader c file =
      .ok ⟨col0.length, schema.length, expectedMetas schema metasT col0.length⟩ := by
    rw [hfile, List.append_assoc]
    exact parseHeader_mkHeader hh (c.loads_dumps schema) _
  rw [hparse] at hp
  have hhi : hi = ⟨col0.length, schema.length,
      expectedMetas schema metasT col0.length⟩ := by
    cases hp; rfl
  subst hhi
  have hstart0 : (h0.length + pad) % 8 = 0 := by
    rw [hpad]
    have h8 : h0.length % 8 < 8 := Nat.mod_lt _ (by norm_num)
    omega
  -- component extraction
  have hcomp : ∀ (j : Nat) (m : ColumnMeta),
      (expectedMetas schema metasT col0.length)[j]? = some m →
      offs[j]? = some m.blockOffset ∧ csizes[j]? = some m.compressedSize := by
    intro j m hm
    obtain ⟨p, mt, _, hmt, hmeq⟩ := expectedMetas_get_inv hm
    rw [hmetasT] at hmt
    obtain ⟨ho, hcu⟩ := List.getElem?_zip_eq_some.mp hmt
    obtain ⟨hcs, _⟩ := List.getElem?_zip_eq_some.mp hcu
    subst hmeq
    exact ⟨ho, hcs⟩
  refine ⟨?_, ?_, ?_⟩
  · intro m hm
    obtain ⟨j, hj⟩ := List.mem_iff_getElem?.mp hm
    obtain ⟨ho, _⟩ := hcomp j m hj
    exact planOffsets_mod hstart0 csizes m.blockOffset (List.getElem?_mem ho)
  · refine ⟨h0, ?_, ?_⟩
    · have : columns.headD [] = col0 := by
        cases columns with
        | nil => cases hcol0
        | cons x xs =>
          simp only [List.head?_cons, Option.some.injEq] at hcol0
          simp [hcol0]
      rw [this]
      exact hh0
    · intro m0 hm0
      rw [List.head?_eq_getElem?] at hm0
      obtain ⟨ho, _⟩ := hcomp 0 m0 hm0
      exact planOffsets_get_zero ho
  · intro i m1 m2 h1 h2
    obtain ⟨ho1, hc1⟩ := hcomp i m1 h1
    obtain ⟨ho2, _⟩ := hcomp (i + 1) m2 h2
    exact planOffsets_succ csizes _ i _ _ _ ho1 hc1 ho2

/-- The header `CFileReader` parses from `exFileC1`. -/
def exHiC1 : HeaderInfo :=
  ⟨2, 3, [⟨"id", 0, 256, 8, 8, 2⟩, ⟨"score", 1, 264, 16, 16, 2⟩,
          ⟨"name", 2, 280, 15, 15, 2⟩]⟩

set_option maxRecDepth 10000 in
/-- Witness for C2 at the spec §8 example. -/
theorem C2_alignment_witness :
    (∀ m ∈ exHiC1.cols, m.blockOffset % 8 = 0) ∧
    (∃ h0, mkHeader exC exSchemaC1 (exC.dumpsSchema exSchemaC1)
        (exColsC1.headD []).length
        (List.replicate exSchemaC1.length (0, 0, 0)) = .ok h0 ∧
      ∀ m0, exHiC1.cols.head? = some m0 →
        m0.blockOffset = h0.length + (8 - h0.length % 8) % 8) ∧
    (∀ (i : Nat) (m1 m2 : ColumnMeta), exHiC1.cols[i]? = some m1 →
      exHiC1.cols[i + 1]? = some m2 →
      m2.blockOffset = align8 (m1.blockOffset + m1.compressedSize)) :=
  @C2_alignment exC exSchemaC1 exColsC1 exFileC1 exHiC1 rfl rfl

theorem decodeIntsFrom_length {data : List Nat} :
    ∀ (n i : Nat) (vs : List CVal), decodeIntsFrom data i n = .ok vs →
      vs.length = n := by
  intro n
  induction n with
  | zero => intro i vs h; cases h; rfl
  | succ n ih =>
    intro i vs h
    unfold decodeIntsFrom at h
    simp only [] at h
    by_cases hsl : (List.take 4 (List.drop (4 * i) data)).length ≠ 4
    · rw [if_pos hsl] at h; cases h
    · rw [if_neg hsl] at h
      cases hrec : decodeIntsFrom data (i + 1) n with
      | error e => rw [hrec] at h; cases h
      | ok vs2 => rw [hrec] at h; cases h; simp [ih _ _ hrec]

theorem decodeFloatsFrom_length {c : Codec} {data : List Nat} :
    ∀ (n i : Nat) (vs : List CVal), decodeFloatsFrom c data i n = .ok vs →
      vs.length = n := by
  intro n
  induction n with
  | zero => intro i vs h; cases h; rfl
  | succ n ih =>
    intro i vs h
    unfold decodeFloatsFrom at h
    simp only [] at h
    by_cases hsl : (List.take 8 (List.drop (8 * i) data)).length ≠ 8
    · rw [if_pos hsl] at h; cases h
    · rw [if_neg hsl] at h
      cases hrec : decodeFloatsFrom c data (i + 1) n with
      | error e => rw [hrec] at h; cases h
      | ok vs2 => rw [hrec] at h; cases h; simp [ih _ _ hrec]

theorem decodeOffsFrom_length {data : List Nat} :
    ∀ (n i : Nat) (os : List Nat), decodeOffsFrom data i n = .ok os →
      os.length = n := by
  intro n
  induction n with
  | zero => intro i os h; cases h; rfl
  | succ n ih =>
    intro i os h
    unfold decodeOffsFrom at h
    simp only [] at h
    by_cases hsl : (List.take 4 (List.drop (4 * i) data)).length ≠ 4
    · rw [if_pos hsl] at h; cases h
    · rw [if_neg hsl] at h
      cases hrec : decodeOffsFrom data (i + 1) n with
      | error e => rw [hrec] at h; cases h
      | ok os2 => rw [hrec] at h; cases h; simp [ih _ _ hrec]

theorem decodeStrSlices_length {c : Codec} {sblob : List Nat} :
    ∀ (offs : List Nat) (vs : List CVal),
      decodeStrSlices c sblob offs = .ok vs → vs.length = offs.length - 1 := by
  intro offs
  induction offs with
  | nil => intro vs h; cases h; rfl
  | cons a rest ih =>
    intro vs h
    cases rest with
    | nil => cases h; rfl
    | cons b rest2 =>
      unfold decodeStrSlices at h
      split at h
      · cases h
      · rename_i s hs
        cases hrec : decodeStrSlices c sblob (b :: rest2) with
        | error e => rw [hrec] at h; cases h
        | ok vs2 =>
          rw [hrec] at h
          cases h
          simp [ih _ hrec]

theorem decodeByTag_length {c : Codec} {tag nv : Nat} {data : List Nat}
    {vs : List CVal} (h : decodeByTag c tag nv data = .ok vs) :
    vs.length = nv := by
  unfold decodeByTag at h
  split at h
  · exact decodeIntsFrom_length _ _ _ h
  · split at h
    · exact decodeFloatsFrom_length _ _ _ h
    · split at h
      · unfold decodeStrings at h
        cases hoffs : decodeOffsFrom data 0 (nv + 1) with
        | error e => rw [hoffs] at h; cases h
        | ok offs =>
          rw [hoffs] at h
          simp only [] at h
          rw [decodeStrSlices_length _ _ h, decodeOffsFrom_length _ _ _ hoffs]
          omega
      · cases h

theorem readColumn_length {c : Codec} {file : List Nat} {hi : HeaderInfo}
    {nm : String} {vals : List CVal}
    (h : readColumn c file hi nm = .ok vals) :
    ∃ m, findMeta hi.cols nm = some m ∧ vals.length = m.numValues := by
  unfold readColumn at h
  cases hf : findMeta hi.cols nm with
  | none => rw [hf] at h; cases h
  | some m =>
    rw [hf] at h
    simp only [] at h
    cases hu : readColumnUncompressed c file m with
    | error e => rw [hu] at h; cases h
    | ok data =>
      rw [hu] at h
      simp only [] at h
      exact ⟨m, rfl, decodeByTag_length h⟩

theorem dictGet_nodup {r : Row} (hnd : (r.map Prod.fst).Nodup) :
    ∀ (j : Nat) (p : String × CVal), r[j]? = some p →
      dictGet r p.1 = some p.2 := by
  induction r with
  | nil => intro j p h; simp at h
  | cons p0 rest ih =>
    intro j p h
    simp only [List.map_cons, List.nodup_cons] at hnd
    cases j with
    | zero =>
      simp only [List.getElem?_cons_zero, Option.some.injEq] at h
      subst h
      unfold dictGet
      simp [List.find?_cons_of_pos]
    | succ j2 =>
      simp only [List.getElem?_cons_succ] at h
      have hmem : p ∈ rest := List.getElem?_mem h
      have hne : p0.1 ≠ p.1 := by
        intro he
        exact hnd.1 (he ▸ List.mem_map_of_mem Prod.fst hmem)
      unfold dictGet
      rw [List.find?_cons_of_neg _ (by simpa using hne)]
      exact ih hnd.2 j2 p h

/-- Claim C3: for every well-formed CFILE (parseable, unique column names,
every directory entry's value count equal to the global row count) and every
column name present in its directory, `read_column(name)` returns exactly the
sequence of values `read_all()` assigns to that name across rows
`0 .. num_rows - 1`. -/
theorem C3_selective_read {c : Codec} {file : List Nat} {hi : HeaderInfo}
    {name : String} {rows : List Row}
    (hp : parseHeader c file = .ok hi)
    (hnd : (hi.cols.map (·.name)).Nodup)
    (hnv : ∀ m ∈ hi.cols, m.numValues = hi.numRows)
    (hname : name ∈ hi.cols.map (·.name))
    (hra : readAll c file hi = .ok rows) :
    ∃ vals, readColumn c file hi name = .ok vals ∧
      vals.length = hi.numRows ∧
      rows.map (fun r => dictGet r name) = vals.map some := by
  unfold readAll at hra
  cases hcd : mapExcept (readColumn c file hi) (hi.cols.map (·.name)) with
  | error e => rw [hcd] at hra; cases hra
  | ok colData =>
    rw [hcd] at hra
    simp only [] at hra
    -- the requested column
    obtain ⟨j, hj⟩ := List.mem_iff_getElem?.mp hname
    obtain ⟨vals, hvals, hrc⟩ := mapExcept_ok_get hcd j name hj
    -- every decoded column has numRows values
    have hcdlen : ∀ cd ∈ colData, cd.length = hi.numRows := by
      intro cd hcdm
      obtain ⟨nm2, _, hrc2⟩ := mapExcept_ok_mem_rev hcd cd hcdm
      obtain ⟨m, hfm, hlen⟩ := readColumn_length hrc2
      rw [hlen]
      exact hnv m (List.mem_of_find?_eq_some hfm)
    have hvlen : vals.length = hi.numRows :=
      hcdlen vals (List.getElem?_mem hvals)
    refine ⟨vals, hrc, hvlen, ?_⟩
    -- rows are assembled per index
    have hnclen : (hi.cols.map (·.name)).length = colData.length :=
      (mapExcept_ok_length hcd).symm
    have hrow : ∀ k ∈ List.range hi.numRows,
        buildRowAux k ((hi.cols.map (·.name)).zip colData) [] =
          .ok (((hi.cols.map (·.name)).zip colData).map
            fun p => (p.1, p.2.getD k (CVal.vInt 0))) := by
      intro k hk
      have hklt : k < hi.numRows := List.mem_range.mp hk
      have := buildRowAux_spec ((hi.cols.map (·.name)).zip colData) []
        (by intro p hp q hq; simp at hq)
        (by rw [List.map_fst_zip _ _ (le_of_eq hnclen)]; exact hnd)
        (by
          intro p hp
          rw [hcdlen p.2 (List.of_mem_zip hp).2]
          exact hklt)
      rw [this, List.nil_append]
    have hrows_eq : rows = (List.range hi.numRows).map fun k =>
        ((hi.cols.map (·.name)).zip colData).map
          fun p => (p.1, p.2.getD k (CVal.vInt 0)) := by
      have := @mapExcept_congr_pure Nat Row
        (fun i => buildRowAux i ((hi.cols.map (·.name)).zip colData) [])
        (fun k => ((hi.cols.map (·.name)).zip colData).map
          fun p => (p.1, p.2.getD k (CVal.vInt 0)))
        (List.range hi.numRows) hrow
      rw [this] at hra
      exact ((Except.ok.injEq _ _).mp hra).symm
    subst hrows_eq
    -- pointwise lookup
    rw [List.map_map]
    apply List.ext_getElem?
    intro k
    rcases lt_or_ge k hi.numRows with hk | hk
    · rw [List.getElem?_map, List.getElem?_range hk,
        List.getElem?_map, List.getElem?_eq_getElem (by omega : k < vals.length)]
      simp only [Option.map_some', Function.comp_apply]
      congr 1
      -- dictGet of the assembled row
      have hpair : (((hi.cols.map (·.name)).zip colData).map
          fun p => (p.1, p.2.getD k (CVal.vInt 0)))[j]? =
          some (name, vals.getD k (CVal.vInt 0)) := by
        have hzz : ((hi.cols.map (·.name)).zip colData)[j]? =
            some (name, vals) := List.getElem?_zip_eq_some.mpr ⟨hj, hvals⟩
        rw [List.getElem?_map, hzz]
        rfl
      have hgnd : ((((hi.cols.map (·.name)).zip colData).map
          fun p => (p.1, p.2.getD k (CVal.vInt 0))).map Prod.fst).Nodup := by
        have hmm : (((hi.cols.map (·.name)).zip colData).map
            fun p => (p.1, p.2.getD k (CVal.vInt 0))).map Prod.fst =
            ((hi.cols.map (·.name)).zip colData).map Prod.fst := by
          rw [List.map_map]; rfl
        rw [hmm, List.map_fst_zip _ _ (le_of_eq hnclen)]
        exact hnd
      have := dictGet_nodup hgnd j _ hpair
      rw [this]
      rw [List.getD_eq_getElem _ _ (by omega : k < vals.length)]
    · rw [List.getElem?_eq_none, List.getElem?_eq_none]
      · simp [hvlen]; omega
      · simp; omega

/-- The rows `read_all` materializes from `exFileC1`. -/
def exRowsC1 : List Row :=
  [[("id", CVal.vInt 1), ("score", CVal.vFloat rq5h), ("name", CVal.vStr "a")],
   [("id", CVal.vInt 2), ("score", CVal.vFloat 0), ("name", CVal.vStr "bb")]]

set_option maxRecDepth 10000 in
/-- Witness for C3 on the §8 example file, column "score". -/
theorem C3_selective_read_witness :
    ∃ vals, readColumn exC exFileC1 exHiC1 "score" = .ok vals ∧
      vals.length = exHiC1.numRows ∧
      exRowsC1.map (fun r => dictGet r "score") = vals.map some :=
  C3_selective_read rfl (by decide) (by decide) (by decide) rfl

theorem parseDirEntry_structError {c : Codec} {rem : List Nat} {nm : String}
    (h2 : 2 ≤ rem.length)
    (hdec : c.utf8dec ((rem.drop 2).take (leVal (rem.take 2))) = some nm)
    (hshort : ((rem.drop 2).drop (leVal (rem.take 2))).length < 33) :
    parseDirEntry c rem = .error .structError := by
  unfold parseDirEntry
  simp only []
  rw [if_neg (by rw [List.length_take]; omega)]
  simp only [hdec, List.length_take, List.length_drop]
  simp only [List.length_drop] at hshort
  by_cases h1 : rem.length - 2 - leVal (rem.take 2) < 1
  · rw [if_pos (by omega)]
  · rw [if_neg (by omega)]
    by_cases h9 : rem.length - 2 - leVal (rem.take 2) < 9
    · rw [if_pos (by omega)]
    · rw [if_neg (by omega)]
      by_cases h17 : rem.length - 2 - leVal (rem.take 2) < 17
      · rw [if_pos (by omega)]
      · rw [if_neg (by omega)]
        by_cases h25 : rem.length - 2 - leVal (rem.take 2) < 25
        · rw [if_pos (by omega)]
        · rw [if_neg (by omega)]
          rw [if_pos (by omega)]

/-- Claim C4 (amended): a short read while parsing the fixed prefix, the
schema length, the schema blob, or the global row/column counts fails with
the corresponding explicit truncated-file error, as does a short read of a
directory entry's 2-byte name length; but a short read inside the rest of a
directory entry has no explicit check.  When the shortened name bytes still
decode, the following fixed-width field comes up short and parsing fails
with a `struct.unpack` error; when they do not decode (a multibyte sequence
cut mid-character), it fails with the Unicode decode error instead.  Either
way parsing fails with no partial recovery, just not with the TruncatedFile
error the original claim names. -/
theorem C4_short_reads :
    (∀ (c : Codec) (file : List Nat), file.length < 12 →
      parseHeader c file = .error .fileTooSmall) ∧
    (∀ (c : Codec) (file : List Nat), 12 ≤ file.length →
      rstripZeros ((file.take 12).take 8) = MAGIC →
      (file.take 12).getD 8 0 = 1 → (file.take 12).getD 9 0 = 0 →
      file.length < 16 →
      parseHeader c file = .error .truncatedSchemaLen) ∧
    (∀ (c : Codec) (file : List Nat), 16 ≤ file.length →
      rstripZeros ((file.take 12).take 8) = MAGIC →
      (file.take 12).getD 8 0 = 1 → (file.take 12).getD 9 0 = 0 →
      file.length < 16 + leVal ((file.drop 12).take 4) →
      parseHeader c file = .error .truncatedSchemaJson) ∧
    (∀ (c : Codec) (file : List Nat), 16 + leVal ((file.drop 12).take 4) ≤ file.length →
      rstripZeros ((file.take 12).take 8) = MAGIC →
      (file.take 12).getD 8 0 = 1 → (file.take 12).getD 9 0 = 0 →
      c.loads (((file.drop 12).drop 4).take (leVal ((file.drop 12).take 4))) = some () →
      file.length < 28 + leVal ((file.drop 12).take 4) →
      parseHeader c file = .error .truncatedGlobalMeta) ∧
    (∀ (c : Codec) (n : Nat) (rem : List Nat), 0 < n → rem.length < 2 →
      parseDir c n rem = .error .truncatedDir) ∧
    (∀ (c : Codec) (n : Nat) (rem : List Nat) (nm : String), 0 < n →
      2 ≤ rem.length →
      c.utf8dec ((rem.drop 2).take (leVal (rem.take 2))) = some nm →
      ((rem.drop 2).drop (leVal (rem.take 2))).length < 33 →
      parseDir c n rem = .error .structError) ∧
    (∀ (c : Codec) (n : Nat) (rem : List Nat), 0 < n → 2 ≤ rem.length →
      c.utf8dec ((rem.drop 2).take (leVal (rem.take 2))) = none →
      parseDir c n rem = .error .unicodeError) := by
  refine ⟨?_, ?_, ?_, ?_, ?_, ?_, ?_⟩
  · intro c file h12
    unfold parseHeader
    rw [if_pos (by rw [List.length_take]; omega)]
  · intro c file h12 hmag hver hend h16
    unfold parseHeader
    simp only []
    rw [if_neg (by rw [List.length_take]; omega)]
    rw [if_neg (by simp [hmag])]
    rw [if_neg (by rw [hver]; simp)]
    rw [if_neg (by rw [hend]; simp)]
    rw [if_pos (by rw [List.length_take, List.length_drop]; omega)]
  · intro c file h16 hmag hver hend hs
    unfold parseHeader
    simp only []
    rw [if_neg (by rw [List.length_take]; omega)]
    rw [if_neg (by simp [hmag])]
    rw [if_neg (by rw [hver]; simp)]
    rw [if_neg (by rw [hend]; simp)]
    rw [if_neg (by rw [List.length_take, List.length_drop]; omega)]
    rw [if_pos (by rw [List.length_take, List.length_drop, List.length_drop]; omega)]
  · intro c file hs hmag hver hend hloads h28
    unfold parseHeader
    simp only []
    rw [if_neg (by rw [List.length_take]; omega)]
    rw [if_neg (by simp [hmag])]
    rw [if_neg (by rw [hver]; simp)]
    rw [if_neg (by rw [hend]; simp)]
    rw [if_neg (by rw [List.length_take, List.length_drop]; omega)]
    rw [if_neg (by rw [List.length_take, List.length_drop, List.length_drop]; omega)]
    simp only [hloads]
    rw [if_pos (by
      rw [List.length_take, List.length_drop, List.length_drop, List.length_drop]
      omega)]
  · intro c n rem hn h2
    cases n with
    | zero => omega
    | succ k =>
      unfold parseDir
      have he : parseDirEntry c rem = .error .truncatedDir := by
        unfold parseDirEntry
        simp only []
        rw [if_pos (by rw [List.length_take]; omega)]
      rw [he]
  · intro c n rem nm hn h2 hdec hshort
    cases n with
    | zero => omega
    | succ k =>
      unfold parseDir
      rw [parseDirEntry_structError h2 hdec hshort]
  · intro c n rem hn h2 hdec
    cases n with
    | zero => omega
    | succ k =>
      unfold parseDir
      have he : parseDirEntry c rem = .error .unicodeError := by
        unfold parseDirEntry
        simp only []
        rw [if_neg (by rw [List.length_take]; omega)]
        simp only [hdec]
      rw [he]


/-- A file truncated three bytes into the first directory entry's
block-offset field: valid prefix, schema length 14, the valid JSON schema
blob (the object with key "columns" and an empty array, which `json.loads`
accepts), zero rows, one column, name length 1, name "a", dtype 0, then
EOF. -/
def exFileC4 : List Nat :=
  [67, 70, 73, 76, 69, 118, 48, 49, 1, 0, 0, 0,
   14, 0, 0, 0,
   123, 34, 99, 111, 108, 117, 109, 110, 115, 34, 58, 91, 93, 125,
   0, 0, 0, 0, 0, 0, 0, 0, 1, 0, 0, 0,
   1, 0, 97, 0, 0, 0, 0]

/-- Counterexample to C4 as stated: the short read of the block-offset field
makes header parsing fail with the `struct.error` of `struct.unpack`, not
with any of the explicit truncated-file `ValueError`s. -/
theorem C4_counterexample :
    parseHeader exC exFileC4 = .error .structError ∧
    Err.structError.isTruncFile = false :=
  ⟨rfl, rfl⟩

/-- Witness for the amended C4 at concrete truncated inputs; the last case
uses the fallible decoder `exCu` on name bytes it rejects. -/
theorem C4_short_reads_witness :
    parseHeader exC [0] = .error .fileTooSmall ∧
    parseDir exC 1 [1] = .error .truncatedDir ∧
    parseDir exC 1 [1, 0, 97, 0, 0, 0, 0] = .error .structError ∧
    parseDir exCu 1 [1, 0, 1114112] = .error .unicodeError :=
  ⟨C4_short_reads.1 exC [0] (by decide),
   C4_short_reads.2.2.2.2.1 exC 1 [1] (by decide) (by decide),
   C4_short_reads.2.2.2.2.2.1 exC 1 [1, 0, 97, 0, 0, 0, 0] "a" (by decide)
     (by decide) (by decide) (by decide),
   C4_short_reads.2.2.2.2.2.2 exCu 1 [1, 0, 1114112] (by decide) (by decide)
     (by decide)⟩

/-! ### Claim C5: value-count mismatch in `read_all` -/

/-- A well-formed-looking file whose single INT32 column records
`num_values = 2` while the file's global `num_rows` is 1.  Its schema blob is
the valid JSON object with an empty columns list (accepted by `json.loads`),
and its block at offset 80 is the genuine zlib stream `zlibC5`, whose
decompression yields the two values 5 and 7 (`rawC5`, 8 bytes as the
directory records). -/
def exFileC5 : List Nat :=
  [67, 70, 73, 76, 69, 118, 48, 49, 1, 0, 0, 0,
   14, 0, 0, 0,
   123, 34, 99, 111, 108, 117, 109, 110, 115, 34, 58, 91, 93, 125,
   1, 0, 0, 0, 0, 0, 0, 0, 1, 0, 0, 0,
   1, 0, 97, 0,
   80, 0, 0, 0, 0, 0, 0, 0,
   14, 0, 0, 0, 0, 0, 0, 0,
   8, 0, 0, 0, 0, 0, 0, 0,
   2, 0, 0, 0, 0, 0, 0, 0,
   0, 0,
   120, 156, 99, 101, 96, 96, 96, 7, 98, 0, 0, 76, 0, 13]

/-- The header parsed from `exFileC5`. -/
def exHiC5 : HeaderInfo := ⟨1, 1, [⟨"a", 0, 80, 14, 8, 2⟩]⟩

/-- Claim C5 evaluated on the failing input: the column's decoded value count
(2) differs from `num_rows` (1), yet `read_all` succeeds, silently dropping
the column's second decoded value instead of raising a structural corruption
error. -/
theorem C5_silent_truncation :
    parseHeader exC exFileC5 = .ok exHiC5 ∧
    exHiC5.numRows = 1 ∧ exHiC5.cols.map (·.numValues) = [2] ∧
    readColumn exC exFileC5 exHiC5 "a" = .ok [CVal.vInt 5, CVal.vInt 7] ∧
    readAll exC exFileC5 exHiC5 = .ok [[("a", CVal.vInt 5)]] :=
  ⟨rfl, rfl, rfl, rfl, rfl⟩

/-- Truncation toward zero: floor for nonnegative rationals, ceiling for
negative ones — the behavior of Python `int()` on a float. -/
theorem ratTrunc_eq (q : ℚ) : ratTrunc q = if 0 ≤ q then ⌊q⌋ else ⌈q⌉ := by
  unfold ratTrunc
  rcases le_or_lt 0 q with hq | hq
  · rw [if_pos hq, Rat.floor_def]
    exact Int.tdiv_eq_ediv (Rat.num_nonneg.mpr hq) (by positivity)
  · rw [if_neg (not_le.mpr hq)]
    have hnum : q.num < 0 := by
      by_contra hc
      exact absurd (Rat.num_nonneg.mp (by omega)) (not_le.mpr hq)
    have hceil : ⌈q⌉ = -⌊-q⌋ := by
      conv_lhs => rw [show q = -(-q) from by ring]
      rw [Int.ceil_neg]
    rw [hceil, Rat.floor_def, Rat.neg_num, Rat.neg_den]
    rw [← Int.tdiv_eq_ediv (by omega) (by positivity), Int.neg_tdiv]
    omega

/-- Claim C6: the encoder's numeric cell coercions.  An empty INT32 cell
encodes as 0 and an empty FLOAT64 cell as 0.0; a non-numeric string under a
numeric type fails with the MalformedValue condition; any other INT32 value
is parsed as a double and truncated toward zero (floor when nonnegative,
ceiling when negative), not parsed as a strict integer; a parsable FLOAT64
value encodes as the parsed double. -/
theorem C6_numeric_coercions (c : Codec) (v : String) (q : ℚ) :
    int32ValueOf c "" = .ok 0 ∧
    (c.pyFloatP v = none → v ≠ "" → int32ValueOf c v = .error .malformedValue) ∧
    (c.pyFloatP v = some q →
      int32ValueOf c v = .ok (if 0 ≤ q then ⌊q⌋ else ⌈q⌉)) ∧
    float64ValueOf c "" = .ok 0 ∧
    (c.pyFloatP v = none → v ≠ "" → float64ValueOf c v = .error .malformedValue) ∧
    (c.pyFloatP v = some q → float64ValueOf c v = .ok q) := by
  refine ⟨by simp [int32ValueOf], ?_, ?_, by simp [float64ValueOf], ?_, ?_⟩
  · intro hnone hne
    unfold int32ValueOf
    rw [if_neg hne, hnone]
  · intro hsome
    have hne : v ≠ "" := by
      intro he
      rw [he, c.floatP_empty] at hsome
      cases hsome
    unfold int32ValueOf
    rw [if_neg hne, hsome]
    simp only []
    rw [ratTrunc_eq]
  · intro hnone hne
    unfold float64ValueOf
    rw [if_neg hne, hnone]
  · intro hsome
    have hne : v ≠ "" := by
      intro he
      rw [he, c.floatP_empty] at hsome
      cases hsome
    unfold float64ValueOf
    rw [if_neg hne, hsome]

/-- Witness for C6 under `exC`: "" encodes as 0/0.0, "xyz" is malformed,
"3.9" truncates to 3 and "-3.9" to -3. -/
theorem C6_numeric_coercions_witness :
    int32ValueOf exC "" = .ok 0 ∧
    int32ValueOf exC "xyz" = .error .malformedValue ∧
    int32ValueOf exC "3.9" = .ok (if 0 ≤ rq39t then ⌊rq39t⌋ else ⌈rq39t⌉) ∧
    int32ValueOf exC "3.9" = .ok 3 ∧
    int32ValueOf exC "-3.9" = .ok (-3) ∧
    float64ValueOf exC "" = .ok 0 ∧
    float64ValueOf exC "xyz" = .error .malformedValue ∧
    float64ValueOf exC "2.5" = .ok rq5h :=
  ⟨(C6_numeric_coercions exC "xyz" 0).1,
   (C6_numeric_coercions exC "xyz" 0).2.1 (by decide) (by decide),
   (C6_numeric_coercions exC "3.9" rq39t).2.2.1 (by decide),
   rfl,
   rfl,
   (C6_numeric_coercions exC "xyz" 0).2.2.2.1,
   (C6_numeric_coercions exC "xyz" 0).2.2.2.2.1 (by decide) (by decide),
   (C6_numeric_coercions exC "2.5" rq5h).2.2.2.2.2 (by decide)⟩

/-- Claim C7 (amended): `infer_type` classifies a sample value by integer
parse, then float parse, then STRING (the empty string lands on STRING since
Python `int("")`/`float("")` fail); with zero data rows every column is
STRING; and with a sample row, the schema classifies each (header, sample)
pair that `zip` produces — a sample row shorter than the header drops the
trailing header columns from the schema instead of classifying them. -/
theorem C7_schema_inference (c : Codec) (v : String)
    (header sample : List String) (rest : List (List String)) :
    (inferType c v = if (c.pyIntP v).isSome then .int32
      else if (c.pyFloatP v).isSome then .float64 else .str) ∧
    inferSchemaFromCsv c [header] = .ok (header.map fun n => (n, DType.str)) ∧
    inferSchemaFromCsv c (header :: sample :: rest) =
      .ok ((header.zip sample).map fun p => (p.1,
        if (c.pyIntP p.2).isSome then .int32
        else if (c.pyFloatP p.2).isSome then .float64 else .str)) ∧
    (∀ sc, inferSchemaFromCsv c (header :: sample :: rest) = .ok sc →
      sc.length = min header.length sample.length) := by
  have hrule : ∀ w, inferType c w = if (c.pyIntP w).isSome then .int32
      else if (c.pyFloatP w).isSome then .float64 else .str := by
    intro w
    unfold inferType
    by_cases hw : w = ""
    · subst hw
      rw [if_pos rfl, c.intP_empty, c.floatP_empty]
      rfl
    · rw [if_neg hw]
  have hcons : inferSchemaFromCsv c (header :: sample :: rest) =
      .ok ((header.zip sample).map fun p => (p.1,
        if (c.pyIntP p.2).isSome then .int32
        else if (c.pyFloatP p.2).isSome then .float64 else .str)) := by
    unfold inferSchemaFromCsv
    simp only [List.head?_cons]
    congr 1
    apply List.map_congr_left
    intro p _
    rw [hrule]
  refine ⟨hrule v, rfl, hcons, ?_⟩
  intro sc hsc
  rw [hcons] at hsc
  cases hsc
  simp [List.length_zip]

/-- Counterexample to C7 as stated: with header `["a", "b"]` and single-field
sample row `["1"]`, schema inference returns a one-entry schema — column "b"
is not classified at all (which the original claim's "each column" and the
padding contract of §6 would require, as STRING for the missing field). -/
theorem C7_counterexample :
    inferSchemaFromCsv exC [["a", "b"], ["1"]] = .ok [("a", DType.int32)] ∧
    inferSchemaFromCsv exC [["a", "b"], ["1"]] ≠
      .ok [("a", DType.int32), ("b", DType.str)] :=
  ⟨rfl, fun h => absurd ((Except.ok.injEq _ _).mp h) (by decide)⟩

/-- Witness for the amended C7 on concrete sources. -/
theorem C7_schema_inference_witness :
    inferSchemaFromCsv exC [["a", "b"]] =
      .ok [("a", DType.str), ("b", DType.str)] ∧
    inferSchemaFromCsv exC [["a", "b"], ["1", "3.9"]] =
      .ok [("a", DType.int32), ("b", DType.float64)] ∧
    inferType exC "" = DType.str ∧
    [("a", DType.int32)].length = min 2 1 :=
  ⟨((C7_schema_inference exC "" ["a", "b"] [] []).2.1 :
      inferSchemaFromCsv exC [["a", "b"]] =
        .ok [("a", DType.str), ("b", DType.str)]),
   by
     have hh := (C7_schema_inference exC "" ["a", "b"] ["1", "3.9"] []).2.2.1
     exact hh.trans (congrArg Except.ok (by decide)),
   ((C7_schema_inference exC "" [] [] []).1 : inferType exC "" = DType.str),
   (C7_schema_inference exC "" ["a", "b"] ["1"] []).2.2.2 [("a", DType.int32)]
     rfl⟩

theorem scanl_add_getLast : ∀ (l : List Nat) (a : Nat),
    (List.scanl (· + ·) a l).getLast? = some (a + l.sum) := by
  intro l
  induction l with
  | nil => intro a; simp
  | cons x xs ih =>
    intro a
    rw [List.scanl_cons, List.singleton_append]
    have hsc : ∃ t, List.scanl (· + ·) (a + x) xs = (a + x) :: t := by
      cases xs with
      | nil => exact ⟨[], rfl⟩
      | cons y ys =>
        exact ⟨List.scanl (· + ·) (a + x + y) ys,
          by rw [List.scanl_cons, List.singleton_append]⟩
    obtain ⟨t, ht⟩ := hsc
    rw [show (a :: List.scanl (· + ·) (a + x) xs).getLast? =
        (List.scanl (· + ·) (a + x) xs).getLast? from by rw [ht]; rfl]
    rw [ih (a + x)]
    simp [List.sum_cons]
    ring

theorem scanl_add_chain : ∀ (l : List Nat) (a : Nat),
    List.Chain' (· ≤ ·) (List.scanl (· + ·) a l) := by
  intro l
  induction l with
  | nil => intro a; simp
  | cons x xs ih =>
    intro a
    rw [List.scanl_cons, List.singleton_append]
    have hsc : ∃ t, List.scanl (· + ·) (a + x) xs = (a + x) :: t := by
      cases xs with
      | nil => exact ⟨[], rfl⟩
      | cons y ys =>
        exact ⟨List.scanl (· + ·) (a + x + y) ys,
          by rw [List.scanl_cons, List.singleton_append]⟩
    obtain ⟨t, ht⟩ := hsc
    rw [ht]
    have ih2 := ih (a + x)
    rw [ht] at ih2
    exact List.Chain'.cons (by omega) ih2

theorem scanl_slice {c : Codec} :
    ∀ (vs : List String) (pre : List Nat) (a i : Nat) (v : String),
    pre.length = a → vs[i]? = some v →
    ((pre ++ (vs.map c.utf8enc).flatten).drop
        ((List.scanl (· + ·) a (vs.map fun w => (c.utf8enc w).length)).getD i 0)).take
      ((List.scanl (· + ·) a (vs.map fun w => (c.utf8enc w).length)).getD (i + 1) 0 -
        (List.scanl (· + ·) a (vs.map fun w => (c.utf8enc w).length)).getD i 0) =
      c.utf8enc v := by
  intro vs
  induction vs with
  | nil => intro pre a i v _ hv; simp at hv
  | cons v0 rest ih =>
    intro pre a i v hpre hv
    simp only [List.map_cons, List.flatten_cons, List.scanl_cons,
      List.singleton_append]
    have hsc : ∃ t, List.scanl (· + ·) (a + (c.utf8enc v0).length)
        (rest.map fun w => (c.utf8enc w).length) =
        (a + (c.utf8enc v0).length) :: t := by
      cases hrm : rest.map fun w => (c.utf8enc w).length with
      | nil => exact ⟨[], rfl⟩
      | cons y ys =>
        exact ⟨_, by rw [List.scanl_cons, List.singleton_append]⟩
    cases i with
    | zero =>
      simp only [List.getElem?_cons_zero, Option.some.injEq] at hv
      subst hv
      obtain ⟨t, ht⟩ := hsc
      rw [ht]
      simp only [List.getD_cons_zero, List.getD_cons_succ]
      rw [Nat.add_sub_cancel_left, drop_chunk pre _ hpre, take_chunk _ _ rfl]
    | succ j =>
      simp only [List.getElem?_cons_succ] at hv
      simp only [List.getD_cons_succ]
      have := ih (pre ++ c.utf8enc v0) (a + (c.utf8enc v0).length) j v
        (by simp [hpre]) hv
      rw [List.append_assoc] at this
      exact this

/-- Claim C8: a successfully built STRING block is `(value_count + 1)`
little-endian 4-byte offsets followed by the concatenated UTF-8 payloads; the
offset table is non-decreasing, starts at 0 and ends at the payload length;
the i-th value's bytes are the slice `payload[offsets[i] : offsets[i+1]]`;
and the decoder recovers exactly the original values from those slices. -/
theorem C8_string_block {c : Codec} {values : List String} {block : List Nat}
    (h : buildUncompressedBlock c .str values = .ok block) :
    block = ((stringOffsets c values).map (natLE 4)).flatten ++
      (values.map c.utf8enc).flatten ∧
    (stringOffsets c values).length = values.length + 1 ∧
    (stringOffsets c values).head? = some 0 ∧
    (stringOffsets c values).getLast? =
      some ((values.map c.utf8enc).flatten).length ∧
    List.Chain' (· ≤ ·) (stringOffsets c values) ∧
    (∀ (i : Nat) (v : String), values[i]? = some v →
      (((values.map c.utf8enc).flatten).drop
          ((stringOffsets c values).getD i 0)).take
        ((stringOffsets c values).getD (i + 1) 0 -
          (stringOffsets c values).getD i 0) = c.utf8enc v) ∧
    decodeStrings c values.length block = .ok (values.map CVal.vStr) := by
  have hshape : block = ((stringOffsets c values).map (natLE 4)).flatten ++
      (values.map c.utf8enc).flatten := by
    unfold buildUncompressedBlock at h
    obtain ⟨offB, hoffB, hfl⟩ := bind_ok_inv h
    cases hfl
    obtain ⟨_, hoffB2⟩ := mapExcept_packU32_inv hoffB
    subst hoffB2
    rfl
  refine ⟨hshape, ?_, ?_, ?_, ?_, ?_, ?_⟩
  · unfold stringOffsets
    rw [List.length_scanl, List.length_map]
  · unfold stringOffsets
    cases values <;> simp [List.scanl_cons]
  · unfold stringOffsets
    rw [scanl_add_getLast]
    simp only [List.length_flatten, List.map_map, Nat.zero_add]
    rfl
  · exact scanl_add_chain _ _
  · intro i v hv
    unfold stringOffsets
    have := @scanl_slice c values [] 0 i v rfl hv
    rw [List.nil_append] at this
    exact this
  · obtain ⟨cvs, hc, hd⟩ := decode_build h
    have : cvs = values.map CVal.vStr := by
      have hp : mapExcept (coerceValue c .str) values =
          .ok (values.map CVal.vStr) := by
        have he : (fun v => (.ok (CVal.vStr v) : Except Err CVal)) =
            coerceValue c .str := rfl
        rw [← he]
        exact mapExcept_pure values
      rw [hp] at hc
      exact ((Except.ok.injEq _ _).mp hc).symm
    subst this
    exact hd

/-- Example STRING column values. -/
def exStrVals : List String := ["a", "bb", ""]

/-- The STRING block built from `exStrVals`: offsets 0, 1, 3, 3 then the
payload "abb". -/
def exBlockC8 : List Nat :=
  [0, 0, 0, 0, 1, 0, 0, 0, 3, 0, 0, 0, 3, 0, 0, 0, 97, 98, 98]

/-- Witness for C8 at a concrete STRING column. -/
theorem C8_string_block_witness :
    exBlockC8 = ((stringOffsets exC exStrVals).map (natLE 4)).flatten ++
      (exStrVals.map exC.utf8enc).flatten ∧
    (stringOffsets exC exStrVals).length = exStrVals.length + 1 ∧
    (stringOffsets exC exStrVals).head? = some 0 ∧
    (stringOffsets exC exStrVals).getLast? =
      some ((exStrVals.map exC.utf8enc).flatten).length ∧
    List.Chain' (· ≤ ·) (stringOffsets exC exStrVals) ∧
    (∀ (i : Nat) (v : String), exStrVals[i]? = some v →
      (((exStrVals.map exC.utf8enc).flatten).drop
          ((stringOffsets exC exStrVals).getD i 0)).take
        ((stringOffsets exC exStrVals).getD (i + 1) 0 -
          (stringOffsets exC exStrVals).getD i 0) = exC.utf8enc v) ∧
    decodeStrings exC exStrVals.length exBlockC8 =
      .ok (exStrVals.map CVal.vStr) :=
  C8_string_block rfl

/-- Claim C9: reading a column's compressed span fails with `TruncatedBlock`
when the span yields fewer than `compressed_size` bytes, and fails with
`SizeMismatch` (returning no values) when the span is read in full but the
decompressed length differs from the recorded uncompressed size. -/
theorem C9_block_read_errors (c : Codec) (file : List Nat) (m : ColumnMeta) :
    (((file.drop m.blockOffset).take m.compressedSize).length <
        m.compressedSize →
      readColumnUncompressed c file m = .error .truncatedBlock) ∧
    (∀ un, ((file.drop m.blockOffset).take m.compressedSize).length =
        m.compressedSize →
      c.decomp ((file.drop m.blockOffset).take m.compressedSize) = some un →
      un.length ≠ m.uncompressedSize →
      readColumnUncompressed c file m = .error .sizeMismatch) := by
  constructor
  · intro hshort
    unfold readColumnUncompressed
    simp only []
    rw [if_pos (by omega)]
  · intro un hfull hdec hne
    unfold readColumnUncompressed
    simp only []
    rw [if_neg (by omega), hdec]
    simp only []
    rw [if_pos hne]

/-- Witness for C9: a 3-byte file read with `compressed_size = 4` is a
truncated block; with `compressed_size = 3` but `uncompressed_size = 99`
under the identity codec it is a size mismatch. -/
theorem C9_block_read_errors_witness :
    readColumnUncompressed exC [1, 2, 3] ⟨"a", 0, 0, 4, 0, 0⟩ =
      .error .truncatedBlock ∧
    readColumnUncompressed exC [1, 2, 3] ⟨"a", 0, 0, 3, 99, 0⟩ =
      .error .sizeMismatch :=
  ⟨(C9_block_read_errors exC [1, 2, 3] ⟨"a", 0, 0, 4, 0, 0⟩).1 (by decide),
   (C9_block_read_errors exC [1, 2, 3] ⟨"a", 0, 0, 3, 99, 0⟩).2 [1, 2, 3]
     (by decide) (by decide) (by decide)⟩

theorem padRow_getD {hlen i : Nat} (r : List String) (h : i < hlen) :
    (padRow hlen r).getD i "" = if i < r.length then r.getD i "" else "" := by
  unfold padRow
  rw [List.getD_eq_getElem?_getD, List.getElem?_take, if_pos h,
    List.getElem?_append]
  by_cases hr : i < r.length
  · rw [if_pos hr, if_pos hr, List.getD_eq_getElem?_getD]
  · rw [if_neg hr, if_neg hr, List.getElem?_replicate, if_pos (by omega)]
    rfl

/-- Claim C10: `read_csv_columns` returns one list per header column, all of
the same length (the number of data rows); a row shorter than the header is
right-padded with empty strings and fields beyond the header's width are
silently discarded. -/
theorem C10_csv_columns (header : List String) (rows : List (List String)) :
    ∃ cols, readCsvColumns (header :: rows) = .ok (header, cols) ∧
      cols.length = header.length ∧
      (∀ col ∈ cols, col.length = rows.length) ∧
      (∀ (i j : Nat), i < header.length → j < rows.length →
        (cols.getD i []).getD j "" =
          if i < (rows.getD j []).length then (rows.getD j []).getD i ""
          else "") := by
  refine ⟨(List.range header.length).map fun i =>
    rows.map fun r => (padRow header.length r).getD i "", rfl, by simp, ?_, ?_⟩
  · intro col hcol
    obtain ⟨i, _, hcol2⟩ := List.mem_map.mp hcol
    rw [← hcol2, List.length_map]
  · intro i j hi hj
    have hci : ((List.range header.length).map fun i =>
        rows.map fun r => (padRow header.length r).getD i "").getD i [] =
        rows.map fun r => (padRow header.length r).getD i "" := by
      rw [List.getD_eq_getElem?_getD, List.getElem?_map, List.getElem?_range hi]
      rfl
    rw [hci]
    have hcj : (rows.map fun r => (padRow header.length r).getD i "").getD j "" =
        (padRow header.length (rows.getD j [])).getD i "" := by
      rw [List.getD_eq_getElem?_getD, List.getElem?_map,
        List.getElem?_eq_getElem hj]
      simp only [Option.map_some', Option.getD_some]
      rw [List.getD_eq_getElem _ _ hj]
    rw [hcj, padRow_getD _ hi]

/-- Witness for C10: header of width 2, one short row and one over-long row. -/
theorem C10_csv_columns_witness :
    ∃ cols, readCsvColumns [["a", "b"], ["x"], ["p", "q", "r"]] =
        .ok (["a", "b"], cols) ∧
      cols.length = 2 ∧
      (∀ col ∈ cols, col.length = 2) ∧
      (∀ (i j : Nat), i < 2 → j < 2 →
        (cols.getD i []).getD j "" =
          if i < ([["x"], ["p", "q", "r"]].getD j []).length
          then ([["x"], ["p", "q", "r"]].getD j []).getD i "" else "") :=
  C10_csv_columns ["a", "b"] [["x"], ["p", "q", "r"]]
